import Mathlib

/-!
Verification development for the rope dependency manager (Go).

The definitions below are a shallow embedding of the Go source:

* `Rope.Version` and its operations embed `version/version.go`
  (PEP 440 versions: `Parse`, `Canonical`, `Equal`, `Match`, `Compare`,
  `GreaterThan`, `Unspecified`, `String`).
* `Rope.Requirement` / `Rope.Minimal` embed `version/requirement.go`.
* `Rope.Dependency`, `Rope.Pkg` and `Rope.MinimalVersionSelection` embed
  `mvs.go` and `project.go`.
* `Rope.addWheelEvents`, `Rope.GetWheel`, `Rope.checkCache` embed
  `cache.go` and the `checkCache` helper of `index.go`.

Go machine integers are modelled as `Int` with the `strconv.Atoi` range
check made explicit (out of range means parse failure).  The Go array
`[6]int` is modelled as a `List Int` that the parser always produces with
length 6.  Go maps that are keyed by package name are modelled as
association lists whose iteration order is insertion order (one of the
schedules Go's randomized map iteration may produce; all results that the
code sorts afterwards are order independent).  `strings.ToLower` is
modelled on ASCII letters, which is the only case in which the version
grammar can accept the character anyway.
-/

namespace Rope

/-! ### Characters and decimal digits -/

/-- ASCII lower-casing, model of `strings.ToLower` for the characters the
version grammar can match. -/
def lowerChar (c : Char) : Char :=
  if 'A' ≤ c ∧ c ≤ 'Z' then Char.ofNat (c.toNat + 32) else c

/-- Characters allowed in a PEP 440 local version besides separators. -/
def isLocalAlnum (c : Char) : Bool :=
  c.isDigit || ('a' ≤ c && c ≤ 'z')

/-- Separator characters of the PEP 440 grammar (the class `[-_.]`). -/
def isSep (c : Char) : Bool :=
  c = '-' || c = '_' || c = '.'

/-- Split off the longest leading run of decimal digits. -/
def takeDigits : List Char → List Char × List Char
  | [] => ([], [])
  | c :: cs =>
    if c.isDigit then
      let p := takeDigits cs
      (c :: p.1, p.2)
    else ([], c :: cs)

/-- Numeric value of a digit character. -/
def digitVal (c : Char) : Nat := c.toNat - 48

/-- Numeric value of a digit string. -/
def digitsVal (ds : List Char) : Nat :=
  ds.foldl (fun a c => 10 * a + digitVal c) 0

/-- Model of `strconv.Atoi` on a digit run: 64-bit signed range check. -/
def atoi (ds : List Char) : Option Int :=
  if digitsVal ds < 2 ^ 63 then some (Int.ofNat (digitsVal ds)) else none

/-- The digit character of `n < 10`. -/
def digitChar (n : Nat) : Char :=
  if n = 0 then '0' else if n = 1 then '1' else if n = 2 then '2'
  else if n = 3 then '3' else if n = 4 then '4' else if n = 5 then '5'
  else if n = 6 then '6' else if n = 7 then '7' else if n = 8 then '8'
  else '9'

/-- Digit printing worker: `fuel` bounds the recursion depth (any
`fuel ≥ n` is enough, see `natDigitsAux_fuel`). -/
def natDigitsAux : Nat → Nat → List Char
  | 0, n => [digitChar n]
  | fuel + 1, n =>
    if n < 10 then [digitChar n]
    else natDigitsAux fuel (n / 10) ++ [digitChar (n % 10)]

/-- Decimal digits of a natural number, most significant first;
model of Go's `%d` for non-negative values. -/
def natDigits (n : Nat) : List Char :=
  natDigitsAux n n

/-- Model of Go's `%d` on `int`. -/
def intDigits (n : Int) : List Char :=
  if n < 0 then '-' :: natDigits (-n).toNat else natDigits n.toNat

/-! ### The Version data type (struct `Version` of version.go) -/

/-- Phases of a pre-release (constants of version.go). -/
def PrereleaseAlpha : Int := -3

def PrereleaseBeta : Int := -2

def PrereleaseCandidate : Int := -1

/-- The Go struct `version.Version`.  `release` models the Go array
`[6]int` (the parser always produces a list of length 6);
`releaseVersions` counts the populated positions. -/
structure Version where
  epoch : Int
  releaseVersions : Nat
  release : List Int
  wildcard : Bool
  preReleasePhase : Int
  preReleaseVersion : Int
  postRelease : Bool
  postReleaseVersion : Int
  devRelease : Bool
  devReleaseVersion : Int
  localVersion : String
deriving DecidableEq

/-- The zero value `Version{}` of Go (all fields zero). -/
def Version.zero : Version :=
  ⟨0, 0, List.replicate 6 0, false, 0, 0, false, 0, false, 0, ""⟩

/-- `Unspecified` of version.go: equality with the zero value. -/
def Version.Unspecified (v : Version) : Bool :=
  v = Version.zero

/-! ### The parser (function `Parse` of version.go)

`Parse` in Go lowercases the input and matches the PEP 440 appendix-B
regular expression (modified to allow a terminal `*` release segment),
then converts captured groups with `strconv.Atoi`.  The deterministic
recursive parser below is the hand compilation of that anchored regex:
ordered alternation with backtracking reduces to longest-match tag
lookup here because every tag pair in which one tag is a prefix of the
other (`a`/`alpha`, `b`/`beta`, `pre`/`preview`, `r`/`rev`) continues
with a letter that no later part of the grammar can consume. -/

/-- Does the second list start with the first one? -/
def startsWithChars : List Char → List Char → Bool
  | [], _ => true
  | _ :: _, [] => false
  | p :: ps, c :: cs => p = c && startsWithChars ps cs

/-- Scan the remaining release segments after an initial digit run `cur`:
the regex `([0-9]+(\.([0-9]+|\*$))*)`.  Returns the segments, whether a
terminal wildcard was seen, and the unconsumed rest.  A `*` that is not at
the end of the input makes the whole regex fail. -/
def relSegsGo : List Char → List Char → List (List Char) →
    Option (List (List Char) × Bool × List Char)
  | [], cur, segs => some (segs ++ [cur], false, [])
  | c :: cs, cur, segs =>
    if c.isDigit then relSegsGo cs (cur ++ [c]) segs
    else if c = '.' then
      match cs with
      | d :: rest =>
        if d = '*' then
          if rest.isEmpty then some (segs ++ [cur], true, []) else none
        else if d.isDigit then relSegsGo rest [d] (segs ++ [cur])
        else some (segs ++ [cur], false, c :: cs)
      | [] => some (segs ++ [cur], false, c :: cs)
    else some (segs ++ [cur], false, c :: cs)

/-- `strconv.Atoi` on every release segment. -/
def segsToInts : List (List Char) → Option (List Int)
  | [] => some []
  | s :: ss =>
    match atoi s, segsToInts ss with
    | some n, some ns => some (n :: ns)
    | _, _ => none

/-- Zero-pad a release vector to the Go array length 6. -/
def padRelease (vals : List Int) : List Int :=
  vals ++ List.replicate (6 - vals.length) 0

/-- Strip one optional separator (`[-_.]?`, greedy). -/
def stripSep (s : List Char) : List Char :=
  match s with
  | c :: cs => if isSep c then cs else c :: cs
  | [] => []

/-- Pre-release tag lookup: the regex alternation
`(a|b|c|rc|alpha|beta|pre|preview)` as longest-match. -/
def matchPreTag (s : List Char) : Option (Int × List Char) :=
  if startsWithChars ['a', 'l', 'p', 'h', 'a'] s then some (PrereleaseAlpha, s.drop 5)
  else if startsWithChars ['b', 'e', 't', 'a'] s then some (PrereleaseBeta, s.drop 4)
  else if startsWithChars ['p', 'r', 'e', 'v', 'i', 'e', 'w'] s then
    some (PrereleaseCandidate, s.drop 7)
  else if startsWithChars ['p', 'r', 'e'] s then some (PrereleaseCandidate, s.drop 3)
  else if startsWithChars ['r', 'c'] s then some (PrereleaseCandidate, s.drop 2)
  else if startsWithChars ['a'] s then some (PrereleaseAlpha, s.drop 1)
  else if startsWithChars ['b'] s then some (PrereleaseBeta, s.drop 1)
  else if startsWithChars ['c'] s then some (PrereleaseCandidate, s.drop 1)
  else none

/-- Post-release tag lookup: `(post|rev|r)` as longest-match. -/
def matchPostTag (s : List Char) : Option (List Char) :=
  if startsWithChars ['p', 'o', 's', 't'] s then some (s.drop 4)
  else if startsWithChars ['r', 'e', 'v'] s then some (s.drop 3)
  else if startsWithChars ['r'] s then some (s.drop 1)
  else none

/-- The pre-release group `([-_.]?(a|b|c|rc|alpha|beta|pre|preview)[-_.]?([0-9]+)?)?`.
Returns `((phase, number), rest)`; phase 0 means absent. -/
def parsePre (s : List Char) : Option ((Int × Int) × List Char) :=
  match matchPreTag (stripSep s) with
  | none => some ((0, 0), s)
  | some (ph, r) =>
    let p := takeDigits (stripSep r)
    if p.1.isEmpty then some ((ph, 0), p.2)
    else
      match atoi p.1 with
      | some n => some ((ph, n), p.2)
      | none => none

/-- The post-release group `((-([0-9]+))|([-_.]?(post|rev|r)[-_.]?([0-9]+)?))?`.
The Go code reads the captures `post_l` and `post_n2` only, so the first
alternative (`-N`) is consumed but recorded as *no* post-release. -/
def parsePost (s : List Char) : Option ((Bool × Int) × List Char) :=
  match s with
  | '-' :: c :: cs =>
    if c.isDigit then
      -- `-N` form: matched by the regex, ignored by Parse (post_l is empty).
      some ((false, 0), (takeDigits (c :: cs)).2)
    else parsePostTagForm ('-' :: c :: cs)
  | r => parsePostTagForm r
where
  parsePostTagForm (s : List Char) : Option ((Bool × Int) × List Char) :=
    match matchPostTag (stripSep s) with
    | none => some ((false, 0), s)
    | some r =>
      let p := takeDigits (stripSep r)
      if p.1.isEmpty then some ((true, 0), p.2)
      else
        match atoi p.1 with
        | some n => some ((true, n), p.2)
        | none => none

/-- The dev-release group `([-_.]?dev[-_.]?([0-9]+)?)?`. -/
def parseDev (s : List Char) : Option ((Bool × Int) × List Char) :=
  if startsWithChars ['d', 'e', 'v'] (stripSep s) then
    let p := takeDigits (stripSep ((stripSep s).drop 3))
    if p.1.isEmpty then some ((true, 0), p.2)
    else
      match atoi p.1 with
      | some n => some ((true, n), p.2)
      | none => none
  else some ((false, 0), s)

/-- Shape of a local version: `[a-z0-9]+([-_.][a-z0-9]+)*`.  The flag is
true when the previous character was alphanumeric (so a separator may
follow). -/
def localOk : Bool → List Char → Bool
  | ok, [] => ok
  | ok, c :: cs =>
    if isLocalAlnum c then localOk true cs
    else if ok && isSep c then localOk false cs
    else false

/-- Everything after the epoch: release, pre, post, dev, local, end of
input.  `seg0` is the first (mandatory) digit run of the release. -/
def parseRest (ep : Int) (seg0 : List Char) (r : List Char) : Option Version :=
  match relSegsGo r seg0 [] with
  | none => none
  | some (segs, wild, rest) =>
    match segsToInts segs with
    | none => none
    | some vals =>
      if wild then
        -- Go rejects a release index ≥ 6 before looking at `*`.
        if vals.length ≤ 5 then
          some ⟨ep, vals.length, padRelease vals, true, 0, 0, false, 0, false, 0, ""⟩
        else none
      else if vals.length ≤ 6 then
        match parsePre rest with
        | none => none
        | some ((ph, pn), rest1) =>
          match parsePost rest1 with
          | none => none
          | some ((pb, pv), rest2) =>
            match parseDev rest2 with
            | none => none
            | some ((db, dv), rest3) =>
              match rest3 with
              | [] =>
                some ⟨ep, vals.length, padRelease vals, false, ph, pn, pb, pv, db, dv, ""⟩
              | '+' :: ls =>
                if localOk false ls then
                  some ⟨ep, vals.length, padRelease vals, false, ph, pn, pb, pv, db, dv,
                    String.mk ls⟩
                else none
              | _ => none
      else none

/-- The whole anchored regex on a lower-cased character list:
`^v?((epoch!)?release pre? post? dev?)(\+local)?$`. -/
def parseChars (s0 : List Char) : Option Version :=
  let s1 := if s0.head? = some 'v' then s0.tail else s0
  let p := takeDigits s1
  if p.1.isEmpty then none
  else if p.2.head? = some '!' then
    match atoi p.1, takeDigits p.2.tail with
    | some e, (ds2, r3) => if ds2.isEmpty then none else parseRest e ds2 r3
    | none, _ => none
  else parseRest 0 p.1 p.2

/-- `Parse` of version.go.  `none` models the `false` result. -/
def parse (s : String) : Option Version :=
  parseChars (s.data.map lowerChar)

/-! ### Canonical (method `Canonical` of version.go) -/

/-- Join digit runs with `.` (the release printing loop). -/
def dotJoin : List (List Char) → List Char
  | [] => []
  | [x] => x
  | x :: xs => x ++ '.' :: dotJoin xs

/-- The `epoch!` part of the canonical form. -/
def epochChars (v : Version) : List Char :=
  if v.epoch > 0 then intDigits v.epoch ++ ['!'] else []

/-- The release part of the canonical form. -/
def relChars (v : Version) : List Char :=
  dotJoin ((v.release.take v.releaseVersions).map intDigits)

/-- The pre-release part of the canonical form. -/
def preChars (v : Version) : List Char :=
  if v.preReleasePhase = PrereleaseAlpha then 'a' :: intDigits v.preReleaseVersion
  else if v.preReleasePhase = PrereleaseBeta then 'b' :: intDigits v.preReleaseVersion
  else if v.preReleasePhase = PrereleaseCandidate then
    'r' :: 'c' :: intDigits v.preReleaseVersion
  else []

/-- The post-release part of the canonical form. -/
def postChars (v : Version) : List Char :=
  if v.postRelease then '.' :: 'p' :: 'o' :: 's' :: 't' :: intDigits v.postReleaseVersion
  else []

/-- The dev-release part of the canonical form. -/
def devChars (v : Version) : List Char :=
  if v.devRelease then '.' :: 'd' :: 'e' :: 'v' :: intDigits v.devReleaseVersion
  else []

/-- The local-version part of the canonical form. -/
def locChars (v : Version) : List Char :=
  if v.localVersion = "" then [] else '+' :: v.localVersion.data

/-- `Canonical` of version.go, producing the character list. -/
def canonicalChars (v : Version) : List Char :=
  if v.wildcard then epochChars v ++ relChars v ++ ['.', '*']
  else epochChars v ++ relChars v ++ preChars v ++ postChars v ++ devChars v ++ locChars v

/-- `Canonical` of version.go. -/
def Version.Canonical (v : Version) : String :=
  String.mk (canonicalChars v)

/-- The `String` method of version.go: `<latest>` for the zero value,
canonical form otherwise. -/
def Version.goString (v : Version) : String :=
  if v.Unspecified then "<latest>" else v.Canonical

/-! ### Equality, matching and comparison (version.go) -/

/-- `Equal` of version.go (part_005): field-wise comparison of epoch,
(zero-padded) release array, pre-, post-, dev-release *and* the local
version; the `releaseVersions` count and the wildcard flag do not
participate. -/
def Version.Equal (v v2 : Version) : Bool :=
  v.epoch = v2.epoch &&
  v.release = v2.release &&
  v.preReleasePhase = v2.preReleasePhase &&
  v.preReleaseVersion = v2.preReleaseVersion &&
  v.postRelease = v2.postRelease &&
  v.postReleaseVersion = v2.postReleaseVersion &&
  v.devRelease = v2.devRelease &&
  v.devReleaseVersion = v2.devReleaseVersion &&
  v.localVersion = v2.localVersion

/-- The release-array loop of `Match`: all positions of the zero-padded
arrays must agree (the Go loop runs over the fixed length-6 array). -/
def releaseAllEq : List Int → List Int → Bool
  | a :: as, b :: bs => a = b && releaseAllEq as bs
  | _, _ => true

/-- `Match` of version.go: epoch and the full zero-padded release array
must agree; then a wildcard on either side matches; otherwise the pre-
and dev-release fields must also agree (post-release is not compared). -/
def Version.Match (v v2 : Version) : Bool :=
  if v.epoch ≠ v2.epoch then false
  else if ¬ releaseAllEq v.release v2.release then false
  else if v.wildcard || v2.wildcard then true
  else if v.preReleasePhase ≠ v2.preReleasePhase then false
  else if v.preReleaseVersion ≠ v2.preReleaseVersion then false
  else if v.devRelease ≠ v2.devRelease then false
  else if v.devReleaseVersion ≠ v2.devReleaseVersion then false
  else true

/-- The release-array loop of the inner `compare`: first position that
differs decides. -/
def cmpRelease : List Int → List Int → Int
  | a :: as, b :: bs =>
    if a > b then 1 else if a < b then -1 else cmpRelease as bs
  | _, _ => 0

/-- The inner comparison closure of `Compare` in version.go (part_005):
epoch, release vector, wildcard cut, pre-release phase and number,
post-release *number* (the flag is not consulted), dev-release flag and
number. -/
def cmpVersion (a b : Version) : Int :=
  if a.epoch > b.epoch then 1
  else if a.epoch < b.epoch then -1
  else if cmpRelease a.release b.release ≠ 0 then cmpRelease a.release b.release
  else if a.wildcard || b.wildcard then 0
  else if a.preReleasePhase > b.preReleasePhase then 1
  else if a.preReleasePhase < b.preReleasePhase then -1
  else if a.preReleaseVersion > b.preReleaseVersion then 1
  else if a.preReleaseVersion < b.preReleaseVersion then -1
  else if a.postReleaseVersion > b.postReleaseVersion then 1
  else if a.postReleaseVersion < b.postReleaseVersion then -1
  else if !a.devRelease && b.devRelease then 1
  else if a.devRelease && !b.devRelease then -1
  else if a.devReleaseVersion > b.devReleaseVersion then 1
  else if a.devReleaseVersion < b.devReleaseVersion then -1
  else 0

/-- `Compare` of version.go including its asymmetry assertion: `none`
models the panic. -/
def Compare (a b : Version) : Option Int :=
  if cmpVersion b a ≠ -1 * cmpVersion a b then none else some (cmpVersion a b)

/-- Rank of the dev-release flag in the comparison order (absence is
greater than presence). -/
def devRank (v : Version) : Int :=
  if v.devRelease then 0 else 1

/-- The fields `cmpVersion` examines before the wildcard cut, as one
lexicographically compared list. -/
def headKey (v : Version) : List Int :=
  v.epoch :: v.release

/-- The fields `cmpVersion` examines after the wildcard cut, as one
lexicographically compared list. -/
def tailKey (v : Version) : List Int :=
  [v.preReleasePhase, v.preReleaseVersion, v.postReleaseVersion, devRank v,
   v.devReleaseVersion]

/-- `GreaterThan` of version.go: `Compare(v, v2) == 1`.  (The asymmetry
panic never fires, see `c3_compare_antisymmetric`, so the comparison
value is `cmpVersion`.) -/
def Version.GreaterThan (v v2 : Version) : Bool :=
  cmpVersion v v2 = 1

/-! ### Requirements and Minimal (version/requirement.go, part_004) -/

/-- Version comparison operator constants. -/
def LessOrEqual : String := "<="

def LessOp : String := "<"

def NotEqualOp : String := "!="

def EqualOp : String := "=="

def GreaterOrEqual : String := ">="

def GreaterOp : String := ">"

def CompatibleEqual : String := "~="

def TripleEqual : String := "==="

/-- `Requirement` of version/requirement.go. -/
structure Requirement where
  operator : String
  version : Version
deriving DecidableEq

/-- The switch condition of `Minimal`: operators that impose a lower
bound. -/
def lowerBoundOp (op : String) : Bool :=
  op = GreaterOrEqual || op = CompatibleEqual || op = EqualOp || op = TripleEqual

/-- The loop body of `Minimal`: fold keeping the highest lower bound
seen under one of the operators `>=`, `~=`, `==`, `===`. -/
def minimalFold : List Requirement → Version → Version
  | [], acc => acc
  | vr :: vrs, acc =>
    if lowerBoundOp vr.operator then
      if vr.version.GreaterThan acc then minimalFold vrs vr.version
      else minimalFold vrs acc
    else minimalFold vrs acc

/-- `Minimal` of version/requirement.go (part_004): highest lower bound
of the requirement list, the zero version if none exists. -/
def Minimal (vrs : List Requirement) : Version :=
  if vrs.isEmpty then Version.zero else minimalFold vrs Version.zero

/-! ### Dependencies, packages and the MVS resolver (project.go, mvs.go) -/

/-- `Dependency` of project.go. -/
structure Dependency where
  name : String
  version : Version
  unspecified : Bool
  mismatch : Bool
deriving DecidableEq

/-- A value implementing the `Package` interface of mvs.go, as produced
by an index: its name, resolved version and dependency list (`Install`
plays no role in resolution). -/
structure Pkg where
  name : String
  version : Version
  dependencies : List Dependency
deriving DecidableEq

/-- A deterministic `PackageIndex`: `FindPackage` as a function; `none`
models the error return. -/
def PackageIndex := String → Version → Option Pkg

/-- A node of the `buildDependencies` map in mvs.go. -/
structure MvsNode where
  value : Dependency
  dependencies : List Dependency
deriving DecidableEq

/-- The zero `node` a Go map lookup yields for a missing key. -/
def MvsNode.zero : MvsNode :=
  ⟨⟨"", Version.zero, false, false⟩, []⟩

/-- Association-list lookup (Go map read). -/
def alookup {α : Type} : List (String × α) → String → Option α
  | [], _ => none
  | (k, v) :: rest, key => if k = key then some v else alookup rest key

/-- Association-list insert/overwrite (Go map write), keeping insertion
order for existing keys. -/
def aupdate {α : Type} : List (String × α) → String → α → List (String × α)
  | [], key, v => [(key, v)]
  | (k, w) :: rest, key, v =>
    if k = key then (k, v) :: rest else (k, w) :: aupdate rest key v

/-- `replace` of mvs.go: should the requirement `v2` replace the current
entry `d1`? -/
def replaceDep (d1 : Dependency) (v2 : Version) (v2unspecified : Bool) : Bool :=
  if v2unspecified then false
  else if d1.unspecified then true
  else v2.GreaterThan d1.version

/-- The dependency identifier used by the `visited` set and the walk
cache in mvs.go: `d.Name + d.Version.String()` (no separator). -/
def depId (name : String) (v : Version) : String :=
  name ++ v.goString

/-- Enqueue the dependencies of a fetched package: mark each unvisited
`name+version` id and append the dependency to the work list. -/
def enqueueDeps : List Dependency → List String → List Dependency →
    List String × List Dependency
  | [], visited, work => (visited, work)
  | d :: ds, visited, work =>
    let id := depId d.name d.version
    if visited.contains id then enqueueDeps ds visited work
    else enqueueDeps ds (visited ++ [id]) (work ++ [d])

/-- The breadth-first work loop of `MinimalVersionSelection`, with fuel
for termination (`none` = fuel exhausted or `FindPackage` error). -/
def mvsLoop (index : PackageIndex) :
    Nat → List Dependency → List String → List (String × MvsNode) →
    Option (List (String × MvsNode))
  | _, [], _, bd => some bd
  | 0, _ :: _, _, _ => none
  | fuel + 1, d :: work, visited, bd =>
    let fetch : Option (List (String × MvsNode)) :=
      match index d.name d.version with
      | none => none
      | some p =>
        let value : Dependency :=
          ⟨p.name, p.version, d.version.Unspecified,
            !d.version.Unspecified && !(p.version.Equal d.version)⟩
        let bd' := aupdate bd p.name ⟨value, p.dependencies⟩
        let vw := enqueueDeps p.dependencies visited work
        mvsLoop index fuel vw.2 vw.1 bd'
    match alookup bd d.name with
    | none => fetch
    | some node =>
      if replaceDep node.value d.version d.version.Unspecified then fetch
      else mvsLoop index fuel work visited bd

/-- The `max` map of mvs.go (one entry per name, keyed map iteration). -/
def maxVersions : List (String × MvsNode) → List (String × Version)
  | [] => []
  | (name, node) :: rest =>
    match alookup (maxVersions rest) name with
    | some _ => maxVersions rest  -- never happens: names are unique keys
    | none => (name, node.value.version) :: maxVersions rest

mutual

/-- The recursive `walk` of mvs.go collecting the `unspecified` name set
(the `postorder` list and the `have`/`walk2` state feed only the
commented-out reduction and are omitted as dead code).  The cache is the
set of seen `name+version` ids.  Fuel models the recursion (`none` =
fuel exhausted, which the embedding surfaces as a resolver failure). -/
def walkGo (bd : List (String × MvsNode)) :
    Nat → MvsNode → List String → List String →
    Option (List String × List String)
  | 0, _, _, _ => none
  | fuel + 1, n, cache, unspec =>
    let id := depId n.value.name n.value.version
    if cache.contains id then some (cache, unspec)
    else
      let cache1 := cache ++ [id]
      let unspec1 :=
        if n.value.unspecified || n.value.mismatch then unspec ++ [n.value.name]
        else unspec
      walkList bd fuel n.dependencies cache1 unspec1

/-- The range loop over a node's dependency list inside `walk`.  Fuel
decreases on every call so that the mutual recursion is structural; any
fuel bounding the total number of visits is enough. -/
def walkList (bd : List (String × MvsNode)) :
    Nat → List Dependency → List String → List String →
    Option (List String × List String)
  | _, [], cache, unspec => some (cache, unspec)
  | 0, _ :: _, _, _ => none
  | fuel + 1, d :: ds, cache, unspec =>
    match walkGo bd fuel ((alookup bd d.name).getD MvsNode.zero) cache unspec with
    | none => none
    | some (cache', unspec') => walkList bd fuel ds cache' unspec'

end

/-- Run `walk` over every node of the build map (the outer range loop of
mvs.go, in insertion order). -/
def walkAll (bd : List (String × MvsNode)) :
    Nat → List (String × MvsNode) → List String → List String →
    Option (List String × List String)
  | _, [], cache, unspec => some (cache, unspec)
  | fuel, (_, node) :: rest, cache, unspec =>
    match walkGo bd fuel node cache unspec with
    | none => none
    | some (cache', unspec') => walkAll bd fuel rest cache' unspec'

/-- The base loop filling `minimalDependencies` from `max` (a missing
name panics in Go, modelled as `none`). -/
def minimalBase (maxv : List (String × Version)) :
    List Dependency → List (String × Dependency) →
    Option (List (String × Dependency))
  | [], acc => some acc
  | d :: ds, acc =>
    match alookup maxv d.name with
    | none => none  -- Go panics here
    | some v => minimalBase maxv ds (aupdate acc d.name ⟨d.name, v, false, false⟩)

/-- The `unspecified` loop: pin every flagged name at its resolved build
entry. -/
def minimalUnspec (bd : List (String × MvsNode)) :
    List String → List (String × Dependency) → List (String × Dependency)
  | [], acc => acc
  | name :: rest, acc =>
    minimalUnspec bd rest
      (aupdate acc name ((alookup bd name).getD MvsNode.zero).value)

/-- Lexicographic order on character lists: Go's `<` on (ASCII)
strings. -/
def charListLt : List Char → List Char → Bool
  | [], [] => false
  | [], _ :: _ => true
  | _ :: _, [] => false
  | a :: as, b :: bs =>
    if a < b then true else if b < a then false else charListLt as bs

/-- Go's `<` on strings (byte-wise lexicographic; the names involved
are ASCII). -/
def strLt (a b : String) : Bool :=
  charListLt a.data b.data

/-- Insertion sort by name: the content of Go's `sort.Slice` by `Name <`
(names are unique map keys, so the sorted list is unique). -/
def insertByName (d : Dependency) : List Dependency → List Dependency
  | [] => [d]
  | e :: es => if strLt d.name e.name then d :: e :: es else e :: insertByName d es

/-- Sort a dependency list by name. -/
def sortByName : List Dependency → List Dependency
  | [] => []
  | d :: ds => insertByName d (sortByName ds)

/-- `MinimalVersionSelection` of mvs.go: returns the build list and the
minimal requirement list, both sorted by name.  `none` models a
`FindPackage` error, the base-name panic, or exhausted fuel. -/
def MinimalVersionSelection (fuel : Nat) (base : List Dependency)
    (index : PackageIndex) : Option (List Dependency × List Dependency) :=
  match mvsLoop index fuel base [] [] with
  | none => none
  | some bd =>
    match walkAll bd fuel bd [] [] with
    | none => none
    | some (_, unspec) =>
      match minimalBase (maxVersions bd) base [] with
      | none => none
      | some acc =>
        let minimalMap := minimalUnspec bd unspec acc
        let buildList := sortByName (bd.map (fun p => p.2.value))
        let minimalList := sortByName (minimalMap.map (fun p => p.2))
        some (buildList, minimalList)

/-! ### The artifact cache (cache.go) and checkCache (index.go, part_017) -/

/-- `cacheVersion` of cache.go. -/
def cacheVersion : String := "0"

/-- One line of the per-name `index.json` log (`cacheIndex` struct). -/
structure CacheIndexEntry where
  filename : String
  requiresDist : List String
  requiresPython : String
deriving DecidableEq

mutual

/-- `NormalizePackageName` of util.go: collapse runs of `[-_.]` to a
single `-`, then lower-case. -/
def normalizeChars : List Char → List Char
  | [] => []
  | c :: cs =>
    if isSep c then '-' :: normalizeSkip cs
    else lowerChar c :: normalizeChars cs

/-- Skip the remainder of a separator run. -/
def normalizeSkip : List Char → List Char
  | [] => []
  | c :: cs =>
    if isSep c then normalizeSkip cs
    else lowerChar c :: normalizeChars cs

end

/-- `NormalizePackageName` of util.go. -/
def NormalizePackageName (name : String) : String :=
  String.mk (normalizeChars name.data)

/-- `getPath` of cache.go: `<cache-root>/<cacheVersion>/<normalized name>`. -/
def cacheGetPath (root : String) (name : String) : String :=
  root ++ "/" ++ cacheVersion ++ "/" ++ NormalizePackageName name

/-- The fields of the `Wheel` struct (part_014) that the cache reads and
writes. -/
structure Wheel where
  name : String
  filename : String
  version : Version
  build : String
  tags : List String
  path : String
  url : String
  requiresDist : List String
  requiresPython : String
deriving DecidableEq

/-- Filesystem and log operations performed by the cache, in program
order. -/
inductive CacheEvent where
  | mkdirAll (dir : String)
  | openLog (dir : String)
  | appendLog (dir : String) (entry : CacheIndexEntry)
  | renameFile (src dst : String)
deriving DecidableEq

/-- The operations of `AddWheel` (cache.go) in program order: create the
directory, open the log, append the entry, and only then move the wheel
file into place. -/
def addWheelEvents (root : String) (w : Wheel) (path : String) : List CacheEvent :=
  let dir := cacheGetPath root w.name
  [CacheEvent.mkdirAll dir,
   CacheEvent.openLog dir,
   CacheEvent.appendLog dir ⟨w.filename, w.requiresDist, w.requiresPython⟩,
   CacheEvent.renameFile path (dir ++ "/" ++ w.filename)]

/-- The new path `AddWheel` returns. -/
def addWheelNewPath (root : String) (w : Wheel) : String :=
  cacheGetPath root w.name ++ "/" ++ w.filename

/-- State of one cache directory: the files present and the decoded log
lines. -/
structure DirState where
  files : List String
  log : List CacheIndexEntry
deriving DecidableEq

/-- Effect of one cache event on a directory state (`src` of the rename
lives outside the directory; the rename makes the target file appear). -/
def applyEvent (s : DirState) : CacheEvent → DirState
  | CacheEvent.mkdirAll _ => s
  | CacheEvent.openLog _ => s
  | CacheEvent.appendLog _ e => ⟨s.files, s.log ++ [e]⟩
  | CacheEvent.renameFile _ dst => ⟨s.files ++ [dst], s.log⟩

/-- Run a list of cache events from a state. -/
def applyEvents (s : DirState) : List CacheEvent → DirState
  | [] => s
  | e :: es => applyEvents (applyEvent s e) es

/-- A line of the on-disk log as seen by the JSON decoder: either a
well-formed entry or a malformed line (decode error). -/
inductive LogLine where
  | entry (e : CacheIndexEntry)
  | bad
deriving DecidableEq

/-- The scan loop of `GetWheel`: decode lines until a wheel parses, has
an `Equal` version and is compatible.  `parseWheel` models
`ParseWheelFilename` (part_014) and `compat` models
`Wheel.Compatible(env)` for the ambient environment. -/
def getWheelScan (parseWheel : String → Option Wheel) (compat : Wheel → Bool)
    (dir : String) (v : Version) :
    List LogLine → Except String (Option Wheel)
  | [] => Except.ok none
  | LogLine.bad :: _ => Except.error "decoding cache index line"
  | LogLine.entry e :: rest =>
    match parseWheel e.filename with
    | none => Except.error "not a wheel"
    | some w =>
      let w' : Wheel :=
        { w with path := dir ++ "/" ++ e.filename,
                 requiresDist := e.requiresDist,
                 requiresPython := e.requiresPython }
      if w'.version.Equal v && compat w' then Except.ok (some w')
      else getWheelScan parseWheel compat dir v rest

/-- `GetWheel` of cache.go.  `logOf` maps a directory to the decoded
content of its `index.json` (`none` = the file does not exist).  The
second component records whether the per-name index log was opened. -/
def GetWheel (root : String) (logOf : String → Option (List LogLine))
    (parseWheel : String → Option Wheel) (compat : Wheel → Bool)
    (name : String) (v : Version) :
    Except String (Option Wheel) × Bool :=
  if v.Unspecified then (Except.ok none, false)
  else
    let dir := cacheGetPath root name
    match logOf dir with
    | none => (Except.ok none, true)
    | some lines => (getWheelScan parseWheel compat dir v lines, true)

/-- `checkCache` of part_017: a cache error propagates; with
`ROPE_CACHE_ONLY` set, a cache miss becomes an error. -/
def checkCache (cacheOnly : Bool) (root : String)
    (logOf : String → Option (List LogLine))
    (parseWheel : String → Option Wheel) (compat : Wheel → Bool)
    (name : String) (v : Version) : Except String (Option Wheel) :=
  match GetWheel root logOf parseWheel compat name v with
  | (Except.error e, _) => Except.error e
  | (Except.ok w, _) =>
    if cacheOnly && w.isNone then
      Except.error "package not found in cache (ROPE_CACHE_ONLY is set)"
    else Except.ok w

/-! ### Shape predicates and the image invariant of Parse -/

/-- All characters are decimal digits. -/
def allDigits (ds : List Char) : Prop :=
  ∀ c ∈ ds, c.isDigit = true

/-- The head, if any, is not a digit. -/
def headNotDigit : List Char → Prop
  | [] => True
  | c :: _ => c.isDigit = false

/-- The rest after the release segments cannot extend them: no digit
head, and after a `.` neither a digit nor a terminal `*`. -/
def relStop : List Char → Prop
  | [] => True
  | [c] => c.isDigit = false
  | c :: d :: _ => c.isDigit = false ∧ (c = '.' → d.isDigit = false ∧ d ≠ '*')

/-- The `.`-prefixed remaining release segments of the canonical form. -/
def dotTail : List (List Char) → List Char
  | [] => []
  | s :: ss => '.' :: s ++ dotTail ss

/-- Invariant of every `Version` value produced by `Parse`. -/
structure ParsedInv (v : Version) : Prop where
  epoch_nonneg : 0 ≤ v.epoch
  epoch_lt : v.epoch < 2 ^ 63
  rv_pos : 1 ≤ v.releaseVersions
  rv_le6 : v.releaseVersions ≤ 6
  rv_wild : v.wildcard = true → v.releaseVersions ≤ 5
  rel_len : v.release.length = 6
  rel_vals : ∀ x ∈ v.release.take v.releaseVersions, 0 ≤ x ∧ x < 2 ^ 63
  rel_pad : v.release.drop v.releaseVersions =
    List.replicate (6 - v.releaseVersions) 0
  phase_mem : v.preReleasePhase = 0 ∨ v.preReleasePhase = -1 ∨
    v.preReleasePhase = -2 ∨ v.preReleasePhase = -3
  pre_of_phase : v.preReleasePhase = 0 → v.preReleaseVersion = 0
  pre_nonneg : 0 ≤ v.preReleaseVersion
  pre_lt : v.preReleaseVersion < 2 ^ 63
  post_of_flag : v.postRelease = false → v.postReleaseVersion = 0
  post_nonneg : 0 ≤ v.postReleaseVersion
  post_lt : v.postReleaseVersion < 2 ^ 63
  dev_of_flag : v.devRelease = false → v.devReleaseVersion = 0
  dev_nonneg : 0 ≤ v.devReleaseVersion
  dev_lt : v.devReleaseVersion < 2 ^ 63
  wild_plain : v.wildcard = true → v.preReleasePhase = 0 ∧
    v.preReleaseVersion = 0 ∧ v.postRelease = false ∧
    v.postReleaseVersion = 0 ∧ v.devRelease = false ∧
    v.devReleaseVersion = 0 ∧ v.localVersion = ""
  local_shape : v.localVersion = "" ∨ localOk false v.localVersion.data = true

/-! ### Concrete data for counterexamples and witnesses -/

/-- A plain release-only version (the value `Parse` yields for a dotted
numeral). -/
def plainVer (rv : Nat) (r : List Int) : Version :=
  ⟨0, rv, r, false, 0, 0, false, 0, false, 0, ""⟩

def v1_0 : Version := plainVer 2 [1, 0, 0, 0, 0, 0]

def v2_0 : Version := plainVer 2 [2, 0, 0, 0, 0, 0]

def v3_0 : Version := plainVer 2 [3, 0, 0, 0, 0, 0]

def v5_0 : Version := plainVer 2 [5, 0, 0, 0, 0, 0]

def v12_0 : Version := plainVer 2 [12, 0, 0, 0, 0, 0]

/-- A dependency with a specified version and clear flags. -/
def depOn (n : String) (v : Version) : Dependency := ⟨n, v, false, false⟩

/-- A dependency with no version bound (the zero version). -/
def depAny (n : String) : Dependency := ⟨n, Version.zero, false, false⟩

/-- Deterministic index for the reproducibility counterexample: package
`a` exists at 1.0 (requiring q 2.0) and 2.0 (requiring q 3.0); `b` 1.0
requires a 2.0; `q` 2.0 requires n 5.0 while `q` 3.0 requires n 1.0.
Every query is answered at exactly the requested name and version. -/
def idxRepro : PackageIndex := fun name v =>
  if name = "a" ∧ v = v1_0 then some ⟨"a", v1_0, [depOn "q" v2_0]⟩
  else if name = "a" ∧ v = v2_0 then some ⟨"a", v2_0, [depOn "q" v3_0]⟩
  else if name = "b" ∧ v = v1_0 then some ⟨"b", v1_0, [depOn "a" v2_0]⟩
  else if name = "q" ∧ v = v2_0 then some ⟨"q", v2_0, [depOn "n" v5_0]⟩
  else if name = "q" ∧ v = v3_0 then some ⟨"q", v3_0, [depOn "n" v1_0]⟩
  else if name = "n" ∧ v = v5_0 then some ⟨"n", v5_0, []⟩
  else if name = "n" ∧ v = v1_0 then some ⟨"n", v1_0, []⟩
  else none

/-- Base list of the reproducibility counterexample. -/
def baseRepro : List Dependency := [depOn "a" v1_0, depOn "b" v1_0]

/-- Deterministic index for the minimal-list counterexample: `b1` 1.0
requires x 12.0, `b2` 1.0 requires x1 with no version bound; `x` 12.0
and `x1` 2.0 exist. -/
def idxCollide : PackageIndex := fun name v =>
  if name = "b1" ∧ v = v1_0 then some ⟨"b1", v1_0, [depOn "x" v12_0]⟩
  else if name = "b2" ∧ v = v1_0 then some ⟨"b2", v1_0, [depAny "x1"]⟩
  else if name = "x" ∧ v = v12_0 then some ⟨"x", v12_0, []⟩
  else if name = "x1" ∧ v = Version.zero then some ⟨"x1", v2_0, []⟩
  else none

/-- Base list of the minimal-list counterexample. -/
def baseCollide : List Dependency := [depOn "b1" v1_0, depOn "b2" v1_0]

/-- A concrete requirement list (`>= 1.0`, `< 5.0`). -/
def vrsW : List Requirement := [⟨GreaterOrEqual, v1_0⟩, ⟨LessOp, v5_0⟩]

/-- A concrete wheel for the cache ordering theorems. -/
def wheelSix : Wheel :=
  ⟨"six", "six-1.15.0-py2.py3-none-any.whl", plainVer 3 [1, 15, 0, 0, 0, 0],
    "", ["py2-none-any", "py3-none-any"], "", "", [], ""⟩

/-- The parsed value of the wildcard version string `0.6.*`. -/
def v06star : Version := ⟨0, 2, [0, 6, 0, 0, 0, 0], true, 0, 0, false, 0, false, 0, ""⟩

/-- The parsed value of `1.0.post0`. -/
def v1_0post0 : Version := ⟨0, 2, [1, 0, 0, 0, 0, 0], false, 0, 0, true, 0, false, 0, ""⟩

/-! ## Theorems -/

theorem cmpRelease_cons (a b : Int) (as bs : List Int) :
    cmpRelease (a :: as) (b :: bs) =
      if a > b then 1 else if a < b then -1 else cmpRelease as bs := by
  rfl

theorem cmpRelease_anti : ∀ as bs : List Int, cmpRelease bs as = -1 * cmpRelease as bs := by
  intro as
  induction as with
  | nil => intro bs; cases bs <;> simp [cmpRelease]
  | cons a as ih =>
    intro bs
    cases bs with
    | nil => simp [cmpRelease]
    | cons b bs =>
      rw [cmpRelease_cons, cmpRelease_cons, ih bs]
      split_ifs <;> omega

theorem cmpRelease_range : ∀ as bs : List Int,
    cmpRelease as bs = 1 ∨ cmpRelease as bs = 0 ∨ cmpRelease as bs = -1 := by
  intro as
  induction as with
  | nil => intro bs; cases bs <;> simp [cmpRelease]
  | cons a as ih =>
    intro bs
    cases bs with
    | nil => simp [cmpRelease]
    | cons b bs =>
      rw [cmpRelease_cons]
      split_ifs <;> simp [ih bs]

set_option maxHeartbeats 1000000 in
theorem cmpVersion_eq_key (a b : Version) :
    cmpVersion a b =
      if cmpRelease (headKey a) (headKey b) ≠ 0 then cmpRelease (headKey a) (headKey b)
      else if a.wildcard || b.wildcard then 0
      else cmpRelease (tailKey a) (tailKey b) := by
  have hhead : cmpRelease (headKey a) (headKey b) =
      if a.epoch > b.epoch then 1 else if a.epoch < b.epoch then -1
      else cmpRelease a.release b.release := rfl
  by_cases h1 : a.epoch > b.epoch
  · simp [cmpVersion, hhead, h1]
  by_cases h2 : a.epoch < b.epoch
  · simp [cmpVersion, hhead, h1, h2]
  by_cases h3 : cmpRelease a.release b.release = 0
  · simp only [cmpVersion, hhead, if_neg h1, if_neg h2, h3, ne_eq,
      not_true_eq_false, if_false, ite_self, not_false_eq_true]
    by_cases h4 : (a.wildcard || b.wildcard) = true
    · simp [h4]
    · simp only [h4, if_false]
      have htail : cmpRelease (tailKey a) (tailKey b) =
          (if a.preReleasePhase > b.preReleasePhase then (1 : Int)
           else if a.preReleasePhase < b.preReleasePhase then -1
           else if a.preReleaseVersion > b.preReleaseVersion then 1
           else if a.preReleaseVersion < b.preReleaseVersion then -1
           else if a.postReleaseVersion > b.postReleaseVersion then 1
           else if a.postReleaseVersion < b.postReleaseVersion then -1
           else if devRank a > devRank b then 1
           else if devRank a < devRank b then -1
           else if a.devReleaseVersion > b.devReleaseVersion then 1
           else if a.devReleaseVersion < b.devReleaseVersion then -1
           else 0) := by
        simp [tailKey, cmpRelease_cons, cmpRelease]
      rw [htail]
      cases hda : a.devRelease <;> cases hdb : b.devRelease <;>
        simp [cmpVersion, h1, h2, h3, h4, hda, hdb, devRank]
  · simp [cmpVersion, hhead, h1, h2, h3]

theorem cmpVersion_anti (a b : Version) : cmpVersion b a = -1 * cmpVersion a b := by
  rw [cmpVersion_eq_key a b, cmpVersion_eq_key b a]
  rw [cmpRelease_anti (headKey a) (headKey b), cmpRelease_anti (tailKey a) (tailKey b),
    Bool.or_comm]
  rcases cmpRelease_range (headKey a) (headKey b) with h | h | h <;>
    rw [h] <;> norm_num

/-- Claim C3: the inner comparison function of `version.Compare` is
antisymmetric on every pair of `Version` values (in particular on all
parsed ones), so the asymmetry assertion (the panic inside `Compare`)
is unreachable and `Compare` totally returns the comparison value. -/
theorem c3_compare_antisymmetric (a b : Version) :
    cmpVersion a b = -1 * cmpVersion b a ∧ Compare a b = some (cmpVersion a b) := by
  constructor
  · exact cmpVersion_anti b a
  · unfold Compare
    rw [if_neg]
    simp only [ne_eq, Decidable.not_not]
    exact cmpVersion_anti a b

/-- Claim C5, behaviour of the code at the spec's concrete inputs: the
version parsed from `0.6.*` does *not* match the versions parsed from
`0.6.1` and `0.6.99` (the release loop of `Match` compares all six
zero-padded positions before the wildcard check), while the claim says
those matches succeed; `0.7.0` does not match, and `0.6.0` does. -/
theorem c5_wildcard_match_eval :
    parse "0.6.*" = some v06star ∧
    parse "0.6.1" = some (plainVer 3 [0, 6, 1, 0, 0, 0]) ∧
    parse "0.6.99" = some (plainVer 3 [0, 6, 99, 0, 0, 0]) ∧
    parse "0.7.0" = some (plainVer 3 [0, 7, 0, 0, 0, 0]) ∧
    parse "0.6.0" = some (plainVer 3 [0, 6, 0, 0, 0, 0]) ∧
    Version.Match v06star (plainVer 3 [0, 6, 1, 0, 0, 0]) = false ∧
    Version.Match v06star (plainVer 3 [0, 6, 99, 0, 0, 0]) = false ∧
    Version.Match v06star (plainVer 3 [0, 7, 0, 0, 0, 0]) = false ∧
    Version.Match v06star (plainVer 3 [0, 6, 0, 0, 0, 0]) = true := by
  decide

/-- Claim C6, behaviour of the code at the failing input: `1.0.post0`
carries a post-release segment and `1.0` does not, all other fields
agree, yet `Compare` returns 0 rather than 1 because only the
post-release *numbers* are compared (the flags are ignored).  Between
two versions that both carry post-releases the numbers do decide. -/
theorem c6_post0_compare_eval :
    parse "1.0.post0" = some v1_0post0 ∧
    parse "1.0" = some v1_0 ∧
    v1_0post0.postRelease = true ∧
    v1_0.postRelease = false ∧
    v1_0post0.epoch = v1_0.epoch ∧
    v1_0post0.release = v1_0.release ∧
    v1_0post0.preReleasePhase = v1_0.preReleasePhase ∧
    v1_0post0.preReleaseVersion = v1_0.preReleaseVersion ∧
    v1_0post0.devRelease = v1_0.devRelease ∧
    v1_0post0.devReleaseVersion = v1_0.devReleaseVersion ∧
    Compare v1_0post0 v1_0 = some 0 ∧
    Compare ⟨0, 2, [1, 0, 0, 0, 0, 0], false, 0, 0, true, 2, false, 0, ""⟩
      ⟨0, 2, [1, 0, 0, 0, 0, 0], false, 0, 0, true, 1, false, 0, ""⟩ = some 1 := by
  decide

/-- Claim C7, counterexample: the versions parsed from `4.3+abc` and
`4.3` agree on every field except the local version, yet `Equal`
returns false (part_005's `Equal` compares the local version; the
repository's own `TestVersionEquality` expects exactly this). -/
theorem c7_equal_local_counterexample :
    parse "4.3+abc" = some ⟨0, 2, [4, 3, 0, 0, 0, 0], false, 0, 0, false, 0, false, 0, "abc"⟩ ∧
    parse "4.3" = some (plainVer 2 [4, 3, 0, 0, 0, 0]) ∧
    Version.Equal ⟨0, 2, [4, 3, 0, 0, 0, 0], false, 0, 0, false, 0, false, 0, "abc"⟩
      (plainVer 2 [4, 3, 0, 0, 0, 0]) = false := by
  decide

/-- Claim C7 as amended: `Equal` is structural *including* the local
version (only the wildcard flag and the effective release length are
ignored): it returns true exactly when epoch, zero-padded release,
pre-release, post-release, dev-release and local version all agree. -/
theorem c7_equal_structural_with_local (a b : Version) :
    a.Equal b = true ↔
      (a.epoch = b.epoch ∧ a.release = b.release ∧
       a.preReleasePhase = b.preReleasePhase ∧
       a.preReleaseVersion = b.preReleaseVersion ∧
       a.postRelease = b.postRelease ∧
       a.postReleaseVersion = b.postReleaseVersion ∧
       a.devRelease = b.devRelease ∧
       a.devReleaseVersion = b.devReleaseVersion ∧
       a.localVersion = b.localVersion) := by
  simp [Version.Equal, Bool.and_eq_true, decide_eq_true_eq, and_assoc]

/-- Claim C9, counterexample at a concrete input: in the execution of
`AddWheel` for a concrete wheel, the log entry is appended at step 2 and
the rename happens only at step 3 (no rename precedes the append), so
the state reached after three steps contains a log entry whose
referenced file is absent from the directory — the claimed order (move
before append) is false. -/
theorem c9_append_before_rename_counterexample :
    (addWheelEvents "/cache" wheelSix "/tmp/six.whl").get? 2 =
      some (CacheEvent.appendLog "/cache/0/six"
        ⟨"six-1.15.0-py2.py3-none-any.whl", [], ""⟩) ∧
    (addWheelEvents "/cache" wheelSix "/tmp/six.whl").get? 3 =
      some (CacheEvent.renameFile "/tmp/six.whl"
        "/cache/0/six/six-1.15.0-py2.py3-none-any.whl") ∧
    ((addWheelEvents "/cache" wheelSix "/tmp/six.whl").take 3).all
      (fun e => match e with
        | CacheEvent.renameFile _ _ => false
        | _ => true) = true ∧
    applyEvents ⟨[], []⟩ ((addWheelEvents "/cache" wheelSix "/tmp/six.whl").take 3) =
      ⟨[], [⟨"six-1.15.0-py2.py3-none-any.whl", [], ""⟩]⟩ := by
  decide

/-- Claim C9 as amended: within every execution of `AddWheel` the log
entry is appended *before* the filesystem move, so a reachable
intermediate state (after the append, before the rename) contains a log
entry whose referenced file is absent from the directory. -/
theorem c9_addwheel_append_then_rename (root : String) (w : Wheel) (path : String) :
    addWheelEvents root w path =
      [CacheEvent.mkdirAll (cacheGetPath root w.name),
       CacheEvent.openLog (cacheGetPath root w.name),
       CacheEvent.appendLog (cacheGetPath root w.name)
         ⟨w.filename, w.requiresDist, w.requiresPython⟩,
       CacheEvent.renameFile path (cacheGetPath root w.name ++ "/" ++ w.filename)] ∧
    applyEvents ⟨[], []⟩ ((addWheelEvents root w path).take 3) =
      ⟨[], [⟨w.filename, w.requiresDist, w.requiresPython⟩]⟩ := by
  exact ⟨rfl, rfl⟩

/-- Claim C10: `GetWheel` called with the unspecified (zero) version
returns no wheel and no error without opening the per-name index log,
for every cache state, wheel parser and environment; and under
`ROPE_CACHE_ONLY` the surrounding `checkCache` then always fails. -/
theorem c10_getwheel_unspecified (root : String)
    (logOf : String → Option (List LogLine)) (parseWheel : String → Option Wheel)
    (compat : Wheel → Bool) (name : String) (v : Version) (hv : v = Version.zero) :
    GetWheel root logOf parseWheel compat name v = (Except.ok none, false) ∧
    checkCache true root logOf parseWheel compat name v =
      Except.error "package not found in cache (ROPE_CACHE_ONLY is set)" := by
  subst hv
  have h : Version.zero.Unspecified = true := by decide
  constructor
  · simp [GetWheel, h]
  · simp [checkCache, GetWheel, h, Option.isNone]

/-- Witness for claim C10 at a concrete cache state and query. -/
theorem c10_getwheel_unspecified_witness :
    GetWheel "/c" (fun _ => none) (fun _ => none) (fun _ => true) "numpy"
      Version.zero = (Except.ok none, false) ∧
    checkCache true "/c" (fun _ => none) (fun _ => none) (fun _ => true) "numpy"
      Version.zero =
      Except.error "package not found in cache (ROPE_CACHE_ONLY is set)" :=
  c10_getwheel_unspecified "/c" (fun _ => none) (fun _ => none) (fun _ => true)
    "numpy" Version.zero rfl

/-- Claim C8, counterexample: for the single requirement `>= 0`, the
only version appearing under a lower-bound operator is the parsed
version of `0`, but `Minimal` returns the zero (unspecified) version,
which is a different value (its effective release length is 0 and it is
`Unspecified`): the fold only replaces its accumulator on a strictly
greater version, and `0` compares equal to the zero version. -/
theorem c8_minimal_counterexample :
    parse "0" = some (plainVer 1 [0, 0, 0, 0, 0, 0]) ∧
    lowerBoundOp GreaterOrEqual = true ∧
    Minimal [⟨GreaterOrEqual, plainVer 1 [0, 0, 0, 0, 0, 0]⟩] = Version.zero ∧
    Version.zero ≠ plainVer 1 [0, 0, 0, 0, 0, 0] ∧
    (plainVer 1 [0, 0, 0, 0, 0, 0]).Unspecified = false ∧
    Version.zero.Unspecified = true := by
  decide

theorem cmpRelease_self : ∀ l : List Int, cmpRelease l l = 0 := by
  intro l
  induction l with
  | nil => rfl
  | cons a as ih => rw [cmpRelease_cons, if_neg (by omega), if_neg (by omega), ih]

theorem cmpRelease_zero_iff : ∀ as bs : List Int, as.length = bs.length →
    (cmpRelease as bs = 0 ↔ as = bs) := by
  intro as
  induction as with
  | nil =>
    intro bs h
    cases bs with
    | nil => simp [cmpRelease]
    | cons b bs => simp at h
  | cons a as ih =>
    intro bs h
    cases bs with
    | nil => simp at h
    | cons b bs =>
      rw [cmpRelease_cons]
      rcases lt_trichotomy a b with h3 | h3 | h3
      · rw [if_neg (by omega), if_pos h3]
        constructor
        · intro hc; omega
        · intro hc
          injection hc with hc1 hc2
          omega
      · subst h3
        rw [if_neg (by omega), if_neg (by omega)]
        rw [ih bs (by simpa using h)]
        constructor
        · intro hc; rw [hc]
        · intro hc
          injection hc
      · rw [if_pos h3]
        constructor
        · intro hc; omega
        · intro hc
          injection hc with hc1 hc2
          omega

theorem cmpRelease_trans_one : ∀ as bs cs : List Int, as.length = bs.length →
    bs.length = cs.length → cmpRelease as bs = 1 → cmpRelease bs cs = 1 →
    cmpRelease as cs = 1 := by
  intro as
  induction as with
  | nil =>
    intro bs cs h1 h2 hab _
    cases bs with
    | nil => simp [cmpRelease] at hab
    | cons b bs => simp at h1
  | cons a as ih =>
    intro bs cs h1 h2 hab hbc
    cases bs with
    | nil => simp at h1
    | cons b bs =>
      cases cs with
      | nil => simp at h2
      | cons c cs =>
        rw [cmpRelease_cons] at hab hbc ⊢
        rcases lt_trichotomy a b with h3 | h3 | h3
        · rw [if_neg (by omega), if_pos h3] at hab
          omega
        · subst h3
          rw [if_neg (by omega), if_neg (by omega)] at hab
          rcases lt_trichotomy a c with h4 | h4 | h4
          · rw [if_neg (by omega), if_pos h4] at hbc
            omega
          · subst h4
            rw [if_neg (by omega), if_neg (by omega)] at hbc ⊢
            exact ih bs cs (by simpa using h1) (by simpa using h2) hab hbc
          · rw [if_pos h4]
        · rcases lt_trichotomy b c with h4 | h4 | h4
          · rw [if_neg (by omega), if_pos h4] at hbc
            omega
          · subst h4
            rw [if_pos h3]
          · rw [if_pos (by omega)]

theorem headKey_length (v : Version) : (headKey v).length = v.release.length + 1 := by
  simp [headKey]

theorem tailKey_length (v : Version) : (tailKey v).length = 5 := by
  simp [tailKey]

theorem cmpVersion_self (v : Version) : cmpVersion v v = 0 := by
  rw [cmpVersion_eq_key, cmpRelease_self, cmpRelease_self]
  simp

/-- Transitivity of strict version dominance for versions whose release
arrays have the Go length 6. -/
theorem cmpVersion_trans_one (a b c : Version) (ha : a.release.length = 6)
    (hb : b.release.length = 6) (hc : c.release.length = 6)
    (hab : cmpVersion a b = 1) (hbc : cmpVersion b c = 1) :
    cmpVersion a c = 1 := by
  have hlab : (headKey a).length = (headKey b).length := by
    rw [headKey_length, headKey_length, ha, hb]
  have hlbc : (headKey b).length = (headKey c).length := by
    rw [headKey_length, headKey_length, hb, hc]
  rw [cmpVersion_eq_key] at hab hbc ⊢
  by_cases h1 : cmpRelease (headKey a) (headKey b) = 0
  · -- head keys of a and b coincide
    have hab' : headKey a = headKey b := (cmpRelease_zero_iff _ _ hlab).mp h1
    rw [h1] at hab
    simp only [ne_eq, not_true_eq_false, if_false] at hab
    by_cases h2 : cmpRelease (headKey b) (headKey c) = 0
    · have hbc' : headKey b = headKey c := (cmpRelease_zero_iff _ _ hlbc).mp h2
      rw [h2] at hbc
      simp only [ne_eq, not_true_eq_false, if_false] at hbc
      -- both comparisons were decided on the tail keys
      by_cases hw1 : (a.wildcard || b.wildcard) = true
      · rw [if_pos hw1] at hab; omega
      · rw [if_neg hw1] at hab
        by_cases hw2 : (b.wildcard || c.wildcard) = true
        · rw [if_pos hw2] at hbc; omega
        · rw [if_neg hw2] at hbc
          have hw3 : (a.wildcard || c.wildcard) = false := by
            simp only [Bool.or_eq_true] at hw1 hw2 ⊢
            simp only [Bool.or_eq_false_iff]
            constructor
            · cases haw : a.wildcard
              · rfl
              · exact absurd (Or.inl haw) hw1
            · cases hcw : c.wildcard
              · rfl
              · exact absurd (Or.inr hcw) hw2
          have hK : cmpRelease (headKey a) (headKey c) = 0 := by
            rw [hab', hbc', cmpRelease_self]
          rw [hK]
          simp only [ne_eq, not_true_eq_false, if_false, hw3, Bool.false_eq_true]
          exact cmpRelease_trans_one _ _ _ (by rw [tailKey_length, tailKey_length])
            (by rw [tailKey_length, tailKey_length]) hab hbc
    · -- b vs c decided on head keys
      rw [if_pos h2] at hbc
      have hK : cmpRelease (headKey a) (headKey c) = 1 := by
        rw [hab']; exact hbc
      rw [hK]
      norm_num
  · -- a vs b decided on head keys
    rw [if_pos h1] at hab
    by_cases h2 : cmpRelease (headKey b) (headKey c) = 0
    · have hbc' : headKey b = headKey c := (cmpRelease_zero_iff _ _ hlbc).mp h2
      have hK : cmpRelease (headKey a) (headKey c) = 1 := by
        rw [← hbc']; exact hab
      rw [hK]
      norm_num
    · rw [if_pos h2] at hbc
      have hK : cmpRelease (headKey a) (headKey c) = 1 :=
        cmpRelease_trans_one _ _ _ hlab hlbc hab hbc
      rw [hK]
      norm_num

theorem greaterThan_asymm (a b : Version) (h : a.GreaterThan b = true) :
    b.GreaterThan a = false := by
  simp only [Version.GreaterThan, decide_eq_true_eq] at h
  simp only [Version.GreaterThan, decide_eq_false_iff_not]
  rw [cmpVersion_anti a b, h]
  omega

theorem greaterThan_irrefl (v : Version) : v.GreaterThan v = false := by
  simp [Version.GreaterThan, cmpVersion_self]

/-- Fold invariant of `Minimal`: the accumulator either stays or moves
to a strictly greater qualifying version, so the result dominates every
qualifying version of the list. -/
theorem minimalFold_inv : ∀ (vrs : List Requirement) (acc : Version),
    (∀ vr ∈ vrs, vr.version.release.length = 6) → acc.release.length = 6 →
    (minimalFold vrs acc).release.length = 6 ∧
    (minimalFold vrs acc = acc ∨
      ∃ vr ∈ vrs, lowerBoundOp vr.operator = true ∧ vr.version = minimalFold vrs acc) ∧
    (minimalFold vrs acc = acc ∨ (minimalFold vrs acc).GreaterThan acc = true) ∧
    (∀ vr ∈ vrs, lowerBoundOp vr.operator = true →
      vr.version.GreaterThan (minimalFold vrs acc) = false) := by
  intro vrs
  induction vrs with
  | nil =>
    intro acc _ hacc
    refine ⟨hacc, Or.inl rfl, Or.inl rfl, ?_⟩
    intro vr hvr
    simp at hvr
  | cons vr vrs ih =>
    intro acc hlen hacc
    have hvr6 : vr.version.release.length = 6 := hlen vr (by simp)
    have hlen' : ∀ u ∈ vrs, u.version.release.length = 6 := by
      intro u hu; exact hlen u (by simp [hu])
    by_cases hop : lowerBoundOp vr.operator = true
    · by_cases hgt : vr.version.GreaterThan acc = true
      · -- the accumulator is replaced by vr.version
        have hred : minimalFold (vr :: vrs) acc = minimalFold vrs vr.version := by
          simp [minimalFold, hop, hgt]
        obtain ⟨ih1, ih2, ih3, ih4⟩ := ih vr.version hlen' hvr6
        rw [hred]
        refine ⟨ih1, ?_, ?_, ?_⟩
        · rcases ih2 with h | ⟨u, hu, hul, huv⟩
          · exact Or.inr ⟨vr, by simp, hop, h.symm⟩
          · exact Or.inr ⟨u, by simp [hu], hul, huv⟩
        · -- the result strictly dominates the old accumulator
          rcases ih3 with h | h
          · rw [h]; exact Or.inr hgt
          · refine Or.inr ?_
            simp only [Version.GreaterThan, decide_eq_true_eq] at h hgt ⊢
            exact cmpVersion_trans_one _ _ _ ih1 hvr6 hacc h hgt
        · intro u hu hul
          rcases List.mem_cons.mp hu with h | h
          · subst h
            rcases ih3 with h2 | h2
            · rw [h2]; exact greaterThan_irrefl _
            · simp only [Version.GreaterThan, decide_eq_true_eq] at h2 ⊢
              simp only [decide_eq_false_iff_not]
              intro hcon
              -- a cycle vr.version > result > vr.version is impossible
              have h3 := cmpVersion_trans_one _ _ _ hvr6 ih1 hvr6 hcon h2
              rw [cmpVersion_self] at h3
              omega
          · exact ih4 u h hul
      · -- vr.version does not beat the accumulator; it is kept
        have hred : minimalFold (vr :: vrs) acc = minimalFold vrs acc := by
          simp [minimalFold, hop, hgt]
        obtain ⟨ih1, ih2, ih3, ih4⟩ := ih acc hlen' hacc
        rw [hred]
        refine ⟨ih1, ?_, ih3, ?_⟩
        · rcases ih2 with h | ⟨u, hu, hul, huv⟩
          · exact Or.inl h
          · exact Or.inr ⟨u, by simp [hu], hul, huv⟩
        · intro u hu hul
          rcases List.mem_cons.mp hu with h | h
          · subst h
            rcases ih3 with h2 | h2
            · rw [h2]
              simpa using hgt
            · simp only [Version.GreaterThan, decide_eq_true_eq] at h2 ⊢
              simp only [decide_eq_false_iff_not]
              intro hcon
              -- u.version > result > acc would give u.version > acc
              have h3 := cmpVersion_trans_one _ _ _ hvr6 ih1 hacc hcon h2
              simp only [Version.GreaterThan, decide_eq_false_iff_not,
                decide_eq_true_eq] at hgt
              exact hgt h3
          · exact ih4 u h hul
    · -- the operator imposes no lower bound; the requirement is skipped
      have hred : minimalFold (vr :: vrs) acc = minimalFold vrs acc := by
        simp [minimalFold, hop]
      obtain ⟨ih1, ih2, ih3, ih4⟩ := ih acc hlen' hacc
      rw [hred]
      refine ⟨ih1, ?_, ih3, ?_⟩
      · rcases ih2 with h | ⟨u, hu, hul, huv⟩
        · exact Or.inl h
        · exact Or.inr ⟨u, by simp [hu], hul, huv⟩
      · intro u hu hul
        rcases List.mem_cons.mp hu with h | h
        · subst h
          exact absurd hul hop
        · exact ih4 u h hul

/-- Claim C8 as amended: `Minimal` returns either the zero (unspecified)
version or a version of the list appearing under one of `>=`, `~=`,
`==`, `===`; no version appearing under those operators is strictly
greater (per `Compare`) than the result; and when no requirement uses
one of those operators the result is the unspecified version.  (The
result can be the unspecified version even when lower bounds exist,
namely when every qualifying version compares equal to it, e.g. `>=0`;
the length hypothesis is the Go array invariant `[6]int`.) -/
theorem c8_minimal_highest_lower_bound (vrs : List Requirement)
    (hlen : ∀ vr ∈ vrs, vr.version.release.length = 6) :
    (Minimal vrs = Version.zero ∨
      ∃ vr ∈ vrs, lowerBoundOp vr.operator = true ∧ vr.version = Minimal vrs) ∧
    (∀ vr ∈ vrs, lowerBoundOp vr.operator = true →
      vr.version.GreaterThan (Minimal vrs) = false) ∧
    ((∀ vr ∈ vrs, lowerBoundOp vr.operator = false) → Minimal vrs = Version.zero) := by
  have hz : Version.zero.release.length = 6 := by decide
  cases vrs with
  | nil => refine ⟨Or.inl rfl, ?_, fun _ => rfl⟩; intro vr hvr; simp at hvr
  | cons vr vrs =>
    have hne : Minimal (vr :: vrs) = minimalFold (vr :: vrs) Version.zero := by
      simp [Minimal]
    obtain ⟨_, h2, _, h4⟩ := minimalFold_inv (vr :: vrs) Version.zero hlen hz
    rw [hne]
    refine ⟨?_, h4, ?_⟩
    · rcases h2 with h | h
      · exact Or.inl h
      · exact Or.inr h
    · intro hnone
      rcases h2 with h | ⟨u, hu, hul, _⟩
      · exact h
      · rw [hnone u hu] at hul
        exact absurd hul (by simp)

/-- Witness for the amended claim C8 on a concrete requirement list
(`>= 1.0`, `< 5.0`): the result is `1.0`, every lower-bound version is
dominated, and the upper bound is ignored. -/
theorem c8_minimal_highest_lower_bound_witness :
    (Minimal vrsW = Version.zero ∨
      ∃ vr ∈ vrsW, lowerBoundOp vr.operator = true ∧ vr.version = Minimal vrsW) ∧
    (∀ vr ∈ vrsW, lowerBoundOp vr.operator = true →
      vr.version.GreaterThan (Minimal vrsW) = false) ∧
    ((∀ vr ∈ vrsW, lowerBoundOp vr.operator = false) → Minimal vrsW = Version.zero) :=
  c8_minimal_highest_lower_bound vrsW (by decide)

/-- Claim C1, counterexample: on the deterministic index `idxRepro`
(which answers every query at exactly the requested name and version),
resolving `[a 1.0, b 1.0]` yields build list
`[a 2.0, b 1.0, n 5.0, q 3.0]` and minimal list `[a 2.0, b 1.0]`, but
re-running the resolver on that minimal list yields build list
`[a 2.0, b 1.0, n 1.0, q 3.0]`: the first build list keeps `n 5.0`,
which is only required by the replaced package `q 2.0`, while the
re-run resolves `n` through `q 3.0` only. -/
theorem c1_reproducibility_counterexample :
    MinimalVersionSelection 100 baseRepro idxRepro =
      some ([depOn "a" v2_0, depOn "b" v1_0, depOn "n" v5_0, depOn "q" v3_0],
        [depOn "a" v2_0, depOn "b" v1_0]) ∧
    MinimalVersionSelection 100 [depOn "a" v2_0, depOn "b" v1_0] idxRepro =
      some ([depOn "a" v2_0, depOn "b" v1_0, depOn "n" v1_0, depOn "q" v3_0],
        [depOn "a" v2_0, depOn "b" v1_0]) ∧
    ([depOn "a" v2_0, depOn "b" v1_0, depOn "n" v5_0, depOn "q" v3_0].map
        (fun d => (d.name, d.version)) ≠
      [depOn "a" v2_0, depOn "b" v1_0, depOn "n" v1_0, depOn "q" v3_0].map
        (fun d => (d.name, d.version))) ∧
    Version.Equal v5_0 v1_0 = false := by
  decide

/-- Claim C2, counterexample: on the deterministic index `idxCollide`
(whose `FindPackage` answers carry exactly the queried name), resolving
`[b1 1.0, b2 1.0]` records `x1 2.0` with the unspecified flag in the
build list, yet the minimal list contains only the base names: the walk
identifier of the node `x1 2.0` is the string `x1` + `2.0` = `x12.0`,
which collides with the identifier `x` + `12.0` of the node `x 12.0`
visited first, so the flagged name is never collected. -/
theorem c2_minimal_composition_counterexample :
    MinimalVersionSelection 100 baseCollide idxCollide =
      some ([depOn "b1" v1_0, depOn "b2" v1_0, depOn "x" v12_0,
          ⟨"x1", v2_0, true, false⟩],
        [depOn "b1" v1_0, depOn "b2" v1_0]) ∧
    (⟨"x1", v2_0, true, false⟩ : Dependency).unspecified = true ∧
    ([depOn "b1" v1_0, depOn "b2" v1_0].map Dependency.name).contains "x1" = false ∧
    depId "x" v12_0 = depId "x1" v2_0 := by
  decide

/-! Digit-printing lemmas for the canonical round trip. -/

theorem digitChar_isDigit (n : Nat) : (digitChar n).isDigit = true := by
  unfold digitChar
  split_ifs <;> decide

theorem natDigitsAux_irrel :
    ∀ fuel fuel' n, n ≤ fuel → n ≤ fuel' → natDigitsAux fuel n = natDigitsAux fuel' n := by
  intro fuel
  induction fuel with
  | zero =>
    intro fuel' n h _
    have hn : n = 0 := by omega
    subst hn
    cases fuel' with
    | zero => rfl
    | succ f => simp [natDigitsAux]
  | succ f ih =>
    intro fuel' n h h'
    cases fuel' with
    | zero =>
      have hn : n = 0 := by omega
      subst hn
      simp [natDigitsAux]
    | succ f' =>
      simp only [natDigitsAux]
      by_cases h10 : n < 10
      · simp [h10]
      · simp only [h10, if_false]
        have hlt : n / 10 < n := Nat.div_lt_self (by omega) (by omega)
        rw [ih f' (n / 10) (by omega) (by omega)]

theorem natDigits_unfold (n : Nat) :
    natDigits n = if n < 10 then [digitChar n]
      else natDigits (n / 10) ++ [digitChar (n % 10)] := by
  unfold natDigits
  by_cases h : n < 10
  · cases n with
    | zero => simp [natDigitsAux]
    | succ m => simp [natDigitsAux, h]
  · cases n with
    | zero => omega
    | succ m =>
      simp only [natDigitsAux, h, if_false]
      have hlt : (m + 1) / 10 < m + 1 := Nat.div_lt_self (by omega) (by omega)
      rw [natDigitsAux_irrel m ((m + 1) / 10) ((m + 1) / 10) (by omega) (by omega)]

theorem natDigits_all_digits (n : Nat) : allDigits (natDigits n) := by
  induction n using Nat.strong_induction_on with
  | _ n ih =>
    rw [natDigits_unfold]
    by_cases h : n < 10
    · simp only [h, if_true]
      intro c hc
      rw [List.mem_singleton] at hc
      subst hc
      exact digitChar_isDigit n
    · simp only [h, if_false]
      intro c hc
      rcases List.mem_append.mp hc with h2 | h2
      · exact ih (n / 10) (Nat.div_lt_self (by omega) (by omega)) c h2
      · rw [List.mem_singleton] at h2
        subst h2
        exact digitChar_isDigit (n % 10)

theorem natDigits_ne_nil (n : Nat) : natDigits n ≠ [] := by
  rw [natDigits_unfold]
  by_cases h : n < 10 <;> simp [h]

theorem digitVal_digitChar (d : Nat) (h : d < 10) : digitVal (digitChar d) = d := by
  interval_cases d <;> decide

theorem digitsVal_append (xs : List Char) (c : Char) :
    digitsVal (xs ++ [c]) = 10 * digitsVal xs + digitVal c := by
  simp [digitsVal, List.foldl_append]

theorem digitsVal_natDigits (n : Nat) : digitsVal (natDigits n) = n := by
  induction n using Nat.strong_induction_on with
  | _ n ih =>
    rw [natDigits_unfold]
    by_cases h : n < 10
    · simp only [h, if_true]
      have : digitsVal [digitChar n] = digitVal (digitChar n) := by
        simp [digitsVal]
      rw [this, digitVal_digitChar n h]
    · simp only [h, if_false]
      rw [digitsVal_append, ih (n / 10) (Nat.div_lt_self (by omega) (by omega)),
        digitVal_digitChar (n % 10) (by omega)]
      omega

theorem atoi_natDigits (n : Nat) (h : n < 2 ^ 63) :
    atoi (natDigits n) = some (Int.ofNat n) := by
  unfold atoi
  rw [digitsVal_natDigits, if_pos h]

theorem atoi_bounds (ds : List Char) (n : Int) (h : atoi ds = some n) :
    0 ≤ n ∧ n < 2 ^ 63 := by
  unfold atoi at h
  by_cases h2 : digitsVal ds < 2 ^ 63
  · rw [if_pos h2] at h
    injection h with h3
    subst h3
    refine ⟨Int.ofNat_nonneg _, ?_⟩
    have h3 := Int.ofNat_lt.mpr h2
    push_cast at h3 ⊢
    exact h3
  · rw [if_neg h2] at h
    exact absurd h (by simp)

/-- For a non-negative Go int, `%d` prints the natural digits. -/
theorem intDigits_nonneg (n : Int) (h : 0 ≤ n) : intDigits n = natDigits n.toNat := by
  unfold intDigits
  rw [if_neg (by omega)]

theorem atoi_intDigits (n : Int) (h0 : 0 ≤ n) (h : n < 2 ^ 63) :
    atoi (intDigits n) = some n := by
  rw [intDigits_nonneg n h0, atoi_natDigits n.toNat (by omega)]
  congr 1
  simpa using Int.toNat_of_nonneg h0

theorem takeDigits_of_digits :
    ∀ ds rest, allDigits ds → headNotDigit rest → takeDigits (ds ++ rest) = (ds, rest) := by
  intro ds
  induction ds with
  | nil =>
    intro rest _ hr
    cases rest with
    | nil => rfl
    | cons c cs =>
      simp only [List.nil_append, takeDigits]
      rw [if_neg]
      rw [headNotDigit] at hr
      simp [hr]
  | cons d ds ih =>
    intro rest hd hr
    have hdd : d.isDigit = true := hd d (by simp)
    have h2 := ih rest (fun c hc => hd c (by simp [hc])) hr
    simp [takeDigits, hdd, h2]

/-! Release-segment scanning lemmas. -/

theorem ne_of_digit {c : Char} (h : c.isDigit = true) {x : Char}
    (hx : x.isDigit = false) : c ≠ x := by
  intro he
  rw [he, hx] at h
  exact Bool.false_ne_true h

theorem relStop_of_head (c : Char) (xs : List Char) (h1 : c.isDigit = false)
    (h2 : c ≠ '.') : relStop (c :: xs) := by
  cases xs <;> simp [relStop, h1, h2]

theorem relStop_dot (d : Char) (xs : List Char) (h1 : d.isDigit = false)
    (h2 : d ≠ '*') : relStop ('.' :: d :: xs) := by
  simp [relStop, h1, h2]

theorem relSegsGo_digits : ∀ (ds : List Char) rest cur segs, allDigits ds →
    relSegsGo (ds ++ rest) cur segs = relSegsGo rest (cur ++ ds) segs := by
  intro ds
  induction ds with
  | nil => intro rest cur segs _; simp
  | cons d ds ih =>
    intro rest cur segs hd
    have hdd : d.isDigit = true := hd d (by simp)
    rw [List.cons_append, relSegsGo.eq_def]
    simp only [hdd, if_true]
    rw [ih rest (cur ++ [d]) segs (fun c hc => hd c (by simp [hc]))]
    simp

theorem relSegsGo_stop : ∀ (rest : List Char) cur segs, relStop rest →
    relSegsGo rest cur segs = some (segs ++ [cur], false, rest) := by
  intro rest cur segs h
  cases rest with
  | nil => rfl
  | cons c cs =>
    cases cs with
    | nil =>
      rw [relStop] at h
      by_cases hc : c = '.'
      · subst hc
        rw [relSegsGo.eq_def]
        simp [h]
      · rw [relSegsGo.eq_def]
        simp [h, hc]
    | cons d ds =>
      rw [relStop] at h
      by_cases hc : c = '.'
      · obtain ⟨hd1, hd2⟩ := h.2 hc
        subst hc
        rw [relSegsGo.eq_def]
        simp [h.1, hd1, hd2]
      · rw [relSegsGo.eq_def]
        simp [h.1, hc]

theorem relSegsGo_dotTail : ∀ (vs : List (List Char)) rest cur segs,
    (∀ s ∈ vs, s ≠ [] ∧ allDigits s) → relStop rest →
    relSegsGo (dotTail vs ++ rest) cur segs = some (segs ++ cur :: vs, false, rest) := by
  intro vs
  induction vs with
  | nil =>
    intro rest cur segs _ hr
    rw [dotTail, List.nil_append, relSegsGo_stop rest cur segs hr]
  | cons v vs ih =>
    intro rest cur segs hv hr
    obtain ⟨hne, hdig⟩ := hv v (by simp)
    obtain ⟨d, ds, rfl⟩ := List.exists_cons_of_ne_nil hne
    have hd : d.isDigit = true := hdig d (by simp)
    have hds : allDigits ds := fun c hc => hdig c (by simp [hc])
    have hstep : dotTail ((d :: ds) :: vs) ++ rest =
        '.' :: d :: (ds ++ (dotTail vs ++ rest)) := by
      simp [dotTail]
    rw [hstep]
    have hnd : ('.' : Char).isDigit = false := by decide
    have hstar : d ≠ '*' := ne_of_digit hd (by decide)
    rw [relSegsGo.eq_def]
    simp only [hnd, Bool.false_eq_true, if_false, if_pos rfl, hstar, hd, if_true]
    rw [relSegsGo_digits ds (dotTail vs ++ rest) [d] (segs ++ [cur]) hds]
    rw [ih rest ([d] ++ ds) (segs ++ [cur]) (fun s hs => hv s (by simp [hs])) hr]
    simp

theorem relSegsGo_dotTail_wild : ∀ (vs : List (List Char)) cur segs,
    (∀ s ∈ vs, s ≠ [] ∧ allDigits s) →
    relSegsGo (dotTail vs ++ ['.', '*']) cur segs = some (segs ++ cur :: vs, true, []) := by
  intro vs
  induction vs with
  | nil =>
    intro cur segs _
    rw [dotTail, List.nil_append]
    simp [relSegsGo]
  | cons v vs ih =>
    intro cur segs hv
    obtain ⟨hne, hdig⟩ := hv v (by simp)
    obtain ⟨d, ds, rfl⟩ := List.exists_cons_of_ne_nil hne
    have hd : d.isDigit = true := hdig d (by simp)
    have hds : allDigits ds := fun c hc => hdig c (by simp [hc])
    have hstep : dotTail ((d :: ds) :: vs) ++ ['.', '*'] =
        '.' :: d :: (ds ++ (dotTail vs ++ ['.', '*'])) := by
      simp [dotTail]
    rw [hstep]
    have hnd : ('.' : Char).isDigit = false := by decide
    have hstar : d ≠ '*' := ne_of_digit hd (by decide)
    rw [relSegsGo.eq_def]
    simp only [hnd, Bool.false_eq_true, if_false, if_pos rfl, hstar, hd, if_true]
    rw [relSegsGo_digits ds (dotTail vs ++ ['.', '*']) [d] (segs ++ [cur]) hds]
    rw [ih ([d] ++ ds) (segs ++ [cur]) (fun s hs => hv s (by simp [hs]))]
    simp

/-! Pre/post/dev stage lemmas on canonical shapes. -/

theorem natDigits_cons (m : Nat) :
    ∃ d ds, natDigits m = d :: ds ∧ d.isDigit = true ∧ allDigits (d :: ds) := by
  have hne := natDigits_ne_nil m
  have hdig := natDigits_all_digits m
  obtain ⟨d, ds, heq⟩ := List.exists_cons_of_ne_nil hne
  refine ⟨d, ds, heq, ?_, ?_⟩
  · exact hdig d (by rw [heq]; simp)
  · rw [← heq]; exact hdig

theorem stripSep_digit (d : Char) (t : List Char) (h : d.isDigit = true) :
    stripSep (d :: t) = d :: t := by
  have h1 : d ≠ '-' := ne_of_digit h (by decide)
  have h2 : d ≠ '_' := ne_of_digit h (by decide)
  have h3 : d ≠ '.' := ne_of_digit h (by decide)
  simp [stripSep, isSep, h1, h2, h3]

theorem sepDigits (n : Int) (rest : List Char) (h0 : 0 ≤ n) (hr : headNotDigit rest) :
    takeDigits (stripSep (intDigits n ++ rest)) = (intDigits n, rest) := by
  rw [intDigits_nonneg n h0]
  obtain ⟨d, ds, heq, hd, hall⟩ := natDigits_cons n.toNat
  rw [heq, List.cons_append, stripSep_digit d (ds ++ rest) hd, ← List.cons_append]
  exact takeDigits_of_digits (d :: ds) rest hall hr

theorem intDigits_not_empty (n : Int) (h0 : 0 ≤ n) : (intDigits n).isEmpty = false := by
  rw [intDigits_nonneg n h0]
  obtain ⟨d, ds, heq, _, _⟩ := natDigits_cons n.toNat
  rw [heq]
  rfl

theorem parsePre_nil : parsePre [] = some ((0, 0), []) := by rfl

theorem parsePre_skip_post (xs : List Char) :
    parsePre ('.' :: 'p' :: 'o' :: 's' :: 't' :: xs) =
      some ((0, 0), '.' :: 'p' :: 'o' :: 's' :: 't' :: xs) := by rfl

theorem parsePre_skip_dev (xs : List Char) :
    parsePre ('.' :: 'd' :: 'e' :: 'v' :: xs) =
      some ((0, 0), '.' :: 'd' :: 'e' :: 'v' :: xs) := by rfl

theorem parsePre_skip_local (xs : List Char) :
    parsePre ('+' :: xs) = some ((0, 0), '+' :: xs) := by rfl

theorem parsePre_alpha (n : Int) (rest : List Char) (h0 : 0 ≤ n) (h1 : n < 2 ^ 63)
    (hr : headNotDigit rest) :
    parsePre ('a' :: (intDigits n ++ rest)) = some ((PrereleaseAlpha, n), rest) := by
  obtain ⟨d, ds, heq, hd, _⟩ := natDigits_cons n.toNat
  have heq' : intDigits n = d :: ds := by rw [intDigits_nonneg n h0, heq]
  have hld : ¬(('l' : Char) = d) := fun h => (ne_of_digit hd (by decide)) h.symm
  have htag : matchPreTag (stripSep ('a' :: (intDigits n ++ rest))) =
      some (PrereleaseAlpha, intDigits n ++ rest) := by
    rw [show stripSep ('a' :: (intDigits n ++ rest)) = 'a' :: (intDigits n ++ rest) from
      by simp [stripSep, isSep]]
    rw [heq']
    simp [matchPreTag, startsWithChars, hld]
  simp only [parsePre, htag, sepDigits n rest h0 hr, intDigits_not_empty n h0,
    Bool.false_eq_true, if_false, atoi_intDigits n h0 h1]

theorem parsePre_beta (n : Int) (rest : List Char) (h0 : 0 ≤ n) (h1 : n < 2 ^ 63)
    (hr : headNotDigit rest) :
    parsePre ('b' :: (intDigits n ++ rest)) = some ((PrereleaseBeta, n), rest) := by
  obtain ⟨d, ds, heq, hd, _⟩ := natDigits_cons n.toNat
  have heq' : intDigits n = d :: ds := by rw [intDigits_nonneg n h0, heq]
  have hld : ¬(('e' : Char) = d) := fun h => (ne_of_digit hd (by decide)) h.symm
  have htag : matchPreTag (stripSep ('b' :: (intDigits n ++ rest))) =
      some (PrereleaseBeta, intDigits n ++ rest) := by
    rw [show stripSep ('b' :: (intDigits n ++ rest)) = 'b' :: (intDigits n ++ rest) from
      by simp [stripSep, isSep]]
    rw [heq']
    simp [matchPreTag, startsWithChars, hld]
  simp only [parsePre, htag, sepDigits n rest h0 hr, intDigits_not_empty n h0,
    Bool.false_eq_true, if_false, atoi_intDigits n h0 h1]

theorem parsePre_rc (n : Int) (rest : List Char) (h0 : 0 ≤ n) (h1 : n < 2 ^ 63)
    (hr : headNotDigit rest) :
    parsePre ('r' :: 'c' :: (intDigits n ++ rest)) =
      some ((PrereleaseCandidate, n), rest) := by
  have htag : matchPreTag (stripSep ('r' :: 'c' :: (intDigits n ++ rest))) =
      some (PrereleaseCandidate, intDigits n ++ rest) := by
    rw [show stripSep ('r' :: 'c' :: (intDigits n ++ rest)) =
        'r' :: 'c' :: (intDigits n ++ rest) from by simp [stripSep, isSep]]
    simp [matchPreTag, startsWithChars]
  simp only [parsePre, htag, sepDigits n rest h0 hr, intDigits_not_empty n h0,
    Bool.false_eq_true, if_false, atoi_intDigits n h0 h1]

theorem parsePost_nil : parsePost [] = some ((false, 0), []) := by rfl

theorem parsePost_skip_dev (xs : List Char) :
    parsePost ('.' :: 'd' :: 'e' :: 'v' :: xs) =
      some ((false, 0), '.' :: 'd' :: 'e' :: 'v' :: xs) := by rfl

theorem parsePost_skip_local (xs : List Char) :
    parsePost ('+' :: xs) = some ((false, 0), '+' :: xs) := by rfl

theorem parsePost_post (n : Int) (rest : List Char) (h0 : 0 ≤ n) (h1 : n < 2 ^ 63)
    (hr : headNotDigit rest) :
    parsePost ('.' :: 'p' :: 'o' :: 's' :: 't' :: (intDigits n ++ rest)) =
      some ((true, n), rest) := by
  have hform : parsePost ('.' :: 'p' :: 'o' :: 's' :: 't' :: (intDigits n ++ rest)) =
      parsePost.parsePostTagForm ('.' :: 'p' :: 'o' :: 's' :: 't' :: (intDigits n ++ rest)) := by
    rfl
  rw [hform]
  have hstrip : stripSep ('.' :: 'p' :: 'o' :: 's' :: 't' :: (intDigits n ++ rest)) =
      'p' :: 'o' :: 's' :: 't' :: (intDigits n ++ rest) := by
    simp [stripSep, isSep]
  have htag : matchPostTag ('p' :: 'o' :: 's' :: 't' :: (intDigits n ++ rest)) =
      some (intDigits n ++ rest) := by
    simp [matchPostTag, startsWithChars]
  simp only [parsePost.parsePostTagForm, hstrip, htag, sepDigits n rest h0 hr,
    intDigits_not_empty n h0, Bool.false_eq_true, if_false, atoi_intDigits n h0 h1]

theorem dotJoin_eq_dotTail : ∀ (xs : List (List Char)) (x : List Char),
    dotJoin (x :: xs) = x ++ dotTail xs := by
  intro xs
  induction xs with
  | nil => intro x; simp [dotJoin, dotTail]
  | cons y ys ih =>
    intro x
    rw [show dotJoin (x :: y :: ys) = x ++ '.' :: dotJoin (y :: ys) from rfl, ih y]
    simp [dotTail]

theorem segsToInts_map : ∀ vals : List Int, (∀ x ∈ vals, 0 ≤ x ∧ x < 2 ^ 63) →
    segsToInts (vals.map intDigits) = some vals := by
  intro vals
  induction vals with
  | nil => intro _; rfl
  | cons x xs ih =>
    intro h
    obtain ⟨h1, h2⟩ := h x (by simp)
    simp only [List.map_cons, segsToInts, atoi_intDigits x h1 h2,
      ih (fun y hy => h y (by simp [hy]))]

theorem intDigits_seg (n : Int) (h0 : 0 ≤ n) :
    intDigits n ≠ [] ∧ allDigits (intDigits n) := by
  rw [intDigits_nonneg n h0]
  exact ⟨natDigits_ne_nil n.toNat, natDigits_all_digits n.toNat⟩

theorem headNotDigit_dotTail_append (segs : List (List Char)) (rest : List Char)
    (h : headNotDigit rest) : headNotDigit (dotTail segs ++ rest) := by
  cases segs with
  | nil => simpa [dotTail]
  | cons s ss => simp [dotTail, headNotDigit]

theorem head_dotTail_append (segs : List (List Char)) (rest : List Char) :
    (dotTail segs ++ rest).head? = rest.head? ∨
      (dotTail segs ++ rest).head? = some '.' := by
  cases segs with
  | nil => left; simp [dotTail]
  | cons s ss => right; simp [dotTail]

theorem relStop_headNotDigit (rest : List Char) (h : relStop rest) :
    headNotDigit rest := by
  cases rest with
  | nil => trivial
  | cons c cs =>
    cases cs with
    | nil => rw [relStop] at h; exact h
    | cons d ds => rw [relStop] at h; exact h.1

/-- `parseChars` on input with no epoch part: the leading digit run is
the first release segment. -/
theorem parseChars_no_epoch (r0 : Int) (rest0 : List Char) (h00 : 0 ≤ r0)
    (hr : headNotDigit rest0) (hne : rest0.head? ≠ some '!') :
    parseChars (intDigits r0 ++ rest0) = parseRest 0 (intDigits r0) rest0 := by
  obtain ⟨d, ds, heq, hd, hall⟩ := natDigits_cons r0.toNat
  have heq' : intDigits r0 = d :: ds := by rw [intDigits_nonneg r0 h00, heq]
  have hdv : ¬((d :: (ds ++ rest0)).head? = some 'v') := by
    simp only [List.head?_cons, Option.some.injEq]
    exact ne_of_digit hd (by decide)
  have htake : takeDigits (intDigits r0 ++ rest0) = (intDigits r0, rest0) :=
    takeDigits_of_digits (intDigits r0) rest0 (heq' ▸ hall) hr
  have hempty : (intDigits r0).isEmpty = false := intDigits_not_empty r0 h00
  simp only [parseChars, heq', List.cons_append, hdv, if_false]
  rw [← List.cons_append, ← heq', htake]
  simp only [hempty, Bool.false_eq_true, if_false, hne, if_false]

/-- `parseChars` on input with an explicit positive epoch. -/
theorem parseChars_with_epoch (e r0 : Int) (rest0 : List Char) (he0 : 0 ≤ e)
    (he1 : e < 2 ^ 63) (h00 : 0 ≤ r0) (hr : headNotDigit rest0) :
    parseChars (intDigits e ++ '!' :: (intDigits r0 ++ rest0)) =
      parseRest e (intDigits r0) rest0 := by
  obtain ⟨d, ds, heq, hd, hall⟩ := natDigits_cons e.toNat
  have heq' : intDigits e = d :: ds := by rw [intDigits_nonneg e he0, heq]
  have hdv : ¬((d :: (ds ++ '!' :: (intDigits r0 ++ rest0))).head? = some 'v') := by
    simp only [List.head?_cons, Option.some.injEq]
    exact ne_of_digit hd (by decide)
  have htake : takeDigits (intDigits e ++ '!' :: (intDigits r0 ++ rest0)) =
      (intDigits e, '!' :: (intDigits r0 ++ rest0)) :=
    takeDigits_of_digits (intDigits e) ('!' :: (intDigits r0 ++ rest0)) (heq' ▸ hall)
      (by rw [headNotDigit]; decide)
  have hempty : (intDigits e).isEmpty = false := intDigits_not_empty e he0
  have htake2 : takeDigits (intDigits r0 ++ rest0) = (intDigits r0, rest0) := by
    obtain ⟨hne2, hall2⟩ := intDigits_seg r0 h00
    exact takeDigits_of_digits (intDigits r0) rest0 hall2 hr
  have hempty2 : (intDigits r0).isEmpty = false := intDigits_not_empty r0 h00
  simp only [parseChars, heq', List.cons_append, hdv, if_false]
  rw [← List.cons_append, ← heq', htake]
  simp only [hempty, Bool.false_eq_true, if_false, List.head?_cons, Option.some.injEq,
    if_true, List.tail_cons, atoi_intDigits e he0 he1, htake2, hempty2]

theorem parseDev_nil : parseDev [] = some ((false, 0), []) := by rfl

theorem parseDev_skip_local (xs : List Char) :
    parseDev ('+' :: xs) = some ((false, 0), '+' :: xs) := by rfl

theorem parseDev_dev (n : Int) (rest : List Char) (h0 : 0 ≤ n) (h1 : n < 2 ^ 63)
    (hr : headNotDigit rest) :
    parseDev ('.' :: 'd' :: 'e' :: 'v' :: (intDigits n ++ rest)) =
      some ((true, n), rest) := by
  have hstrip : stripSep ('.' :: 'd' :: 'e' :: 'v' :: (intDigits n ++ rest)) =
      'd' :: 'e' :: 'v' :: (intDigits n ++ rest) := by
    simp [stripSep, isSep]
  unfold parseDev
  rw [hstrip]
  have hsw : startsWithChars ['d', 'e', 'v'] ('d' :: 'e' :: 'v' :: (intDigits n ++ rest)) =
      true := by
    simp [startsWithChars]
  rw [if_pos hsw]
  have hdrop : ('d' :: 'e' :: 'v' :: (intDigits n ++ rest)).drop 3 =
      intDigits n ++ rest := by rfl
  rw [hdrop]
  simp only [sepDigits n rest h0 hr, intDigits_not_empty n h0,
    Bool.false_eq_true, if_false, atoi_intDigits n h0 h1]

/-! Soundness of the parser stages: every produced value satisfies the
shape invariant `ParsedInv`. -/

theorem segsToInts_sound : ∀ (segs : List (List Char)) (vals : List Int),
    segsToInts segs = some vals →
    vals.length = segs.length ∧ ∀ x ∈ vals, 0 ≤ x ∧ x < 2 ^ 63 := by
  intro segs
  induction segs with
  | nil =>
    intro vals h
    rw [segsToInts] at h
    injection h with h
    subst h
    exact ⟨rfl, by simp⟩
  | cons s ss ih =>
    intro vals h
    rw [segsToInts] at h
    cases h1 : atoi s <;> rw [h1] at h
    · exact absurd h (by simp)
    · cases h2 : segsToInts ss <;> rw [h2] at h
      · exact absurd h (by simp)
      · rename_i n ns
        injection h with h
        subst h
        obtain ⟨hl, hb⟩ := ih ns h2
        refine ⟨by simp [hl], ?_⟩
        intro x hx
        rcases List.mem_cons.mp hx with hx | hx
        · subst hx; exact atoi_bounds s x h1
        · exact hb x hx

theorem relSegsGo_ne_nil :
    ∀ (n : Nat) (r cur : List Char) (segs out : List (List Char)) (w : Bool)
      (rest : List Char), r.length ≤ n → relSegsGo r cur segs = some (out, w, rest) →
      out ≠ [] := by
  intro n
  induction n with
  | zero =>
    intro r cur segs out w rest hn h
    have hr : r = [] := List.eq_nil_of_length_eq_zero (Nat.le_zero.mp hn)
    subst hr
    rw [relSegsGo] at h
    injection h with h
    rw [Prod.mk.injEq] at h
    rw [← h.1]
    simp
  | succ n ih =>
    intro r cur segs out w rest hn h
    cases r with
    | nil =>
      rw [relSegsGo] at h
      injection h with h
      rw [Prod.mk.injEq] at h
      rw [← h.1]
      simp
    | cons c cs =>
      rw [relSegsGo.eq_def] at h
      simp only at h
      split at h
      · exact ih cs (cur ++ [c]) segs out w rest (by simpa using hn) h
      · split at h
        · split at h
          · split at h
            · split at h
              · injection h with h
                rw [Prod.mk.injEq] at h
                rw [← h.1]
                simp
              · exact absurd h (by simp)
            · split at h
              · rename_i d rest1 hstar hd
                refine ih rest1 [d] (segs ++ [cur]) out w rest ?_ h
                simp at hn
                omega
              · injection h with h
                rw [Prod.mk.injEq] at h
                rw [← h.1]
                simp
          · injection h with h
            rw [Prod.mk.injEq] at h
            rw [← h.1]
            simp
        · injection h with h
          rw [Prod.mk.injEq] at h
          rw [← h.1]
          simp

theorem matchPreTag_mem (s : List Char) (ph : Int) (r : List Char)
    (h : matchPreTag s = some (ph, r)) :
    ph = PrereleaseAlpha ∨ ph = PrereleaseBeta ∨ ph = PrereleaseCandidate := by
  rw [matchPreTag] at h
  split_ifs at h <;> simp only [Option.some.injEq, Prod.mk.injEq] at h <;>
    simp [← h.1]

theorem parsePre_sound (s : List Char) (ph pn : Int) (rest : List Char)
    (h : parsePre s = some ((ph, pn), rest)) :
    (ph = 0 ∨ ph = -1 ∨ ph = -2 ∨ ph = -3) ∧ (ph = 0 → pn = 0) ∧
      0 ≤ pn ∧ pn < 2 ^ 63 := by
  rw [parsePre] at h
  cases h1 : matchPreTag (stripSep s) <;> rw [h1] at h
  · rw [Option.some.injEq, Prod.mk.injEq, Prod.mk.injEq] at h
    obtain ⟨⟨hph, hpn⟩, _⟩ := h
    rw [← hph, ← hpn]
    exact ⟨Or.inl rfl, fun _ => rfl, le_refl 0, by decide⟩
  · rename_i pr
    obtain ⟨ph', r⟩ := pr
    have hmem := matchPreTag_mem (stripSep s) ph' r h1
    have hdisj : ph' = 0 ∨ ph' = -1 ∨ ph' = -2 ∨ ph' = -3 := by
      rcases hmem with hm | hm | hm <;> rw [hm] <;>
        simp [PrereleaseAlpha, PrereleaseBeta, PrereleaseCandidate]
    have hne : ph' ≠ 0 := by
      rcases hmem with hm | hm | hm <;> rw [hm] <;> decide
    simp only at h
    by_cases hemp : (takeDigits (stripSep r)).1.isEmpty
    · rw [if_pos hemp] at h
      rw [Option.some.injEq, Prod.mk.injEq, Prod.mk.injEq] at h
      obtain ⟨⟨hph, hpn⟩, _⟩ := h
      rw [← hph, ← hpn]
      exact ⟨hdisj, fun _ => rfl, le_refl 0, by decide⟩
    · rw [if_neg hemp] at h
      cases h2 : atoi (takeDigits (stripSep r)).1 <;> rw [h2] at h
      · exact absurd h (by simp)
      · rename_i n
        rw [Option.some.injEq, Prod.mk.injEq, Prod.mk.injEq] at h
        obtain ⟨⟨hph, hpn⟩, _⟩ := h
        rw [← hph, ← hpn]
        obtain ⟨hb1, hb2⟩ := atoi_bounds _ n h2
        exact ⟨hdisj, fun hc => absurd hc hne, hb1, hb2⟩

theorem parsePostTagForm_sound (s : List Char) (pb : Bool) (pv : Int)
    (rest : List Char) (h : parsePost.parsePostTagForm s = some ((pb, pv), rest)) :
    (pb = false → pv = 0) ∧ 0 ≤ pv ∧ pv < 2 ^ 63 := by
  rw [parsePost.parsePostTagForm] at h
  cases h1 : matchPostTag (stripSep s) <;> rw [h1] at h
  · rw [Option.some.injEq, Prod.mk.injEq, Prod.mk.injEq] at h
    obtain ⟨⟨hpb, hpv⟩, _⟩ := h
    rw [← hpb, ← hpv]
    exact ⟨fun _ => rfl, le_refl 0, by decide⟩
  · rename_i r
    simp only at h
    by_cases hemp : (takeDigits (stripSep r)).1.isEmpty
    · rw [if_pos hemp] at h
      rw [Option.some.injEq, Prod.mk.injEq, Prod.mk.injEq] at h
      obtain ⟨⟨hpb, hpv⟩, _⟩ := h
      rw [← hpb, ← hpv]
      exact ⟨fun hc => absurd hc (by simp), le_refl 0, by decide⟩
    · rw [if_neg hemp] at h
      cases h2 : atoi (takeDigits (stripSep r)).1 <;> rw [h2] at h
      · exact absurd h (by simp)
      · rename_i n
        rw [Option.some.injEq, Prod.mk.injEq, Prod.mk.injEq] at h
        obtain ⟨⟨hpb, hpv⟩, _⟩ := h
        rw [← hpb, ← hpv]
        obtain ⟨hb1, hb2⟩ := atoi_bounds _ n h2
        exact ⟨fun hc => absurd hc (by simp), hb1, hb2⟩

theorem parsePost_sound (s : List Char) (pb : Bool) (pv : Int) (rest : List Char)
    (h : parsePost s = some ((pb, pv), rest)) :
    (pb = false → pv = 0) ∧ 0 ≤ pv ∧ pv < 2 ^ 63 := by
  rw [parsePost.eq_def] at h
  split at h
  · split at h
    · rw [Option.some.injEq, Prod.mk.injEq, Prod.mk.injEq] at h
      obtain ⟨⟨hpb, hpv⟩, _⟩ := h
      rw [← hpb, ← hpv]
      exact ⟨fun _ => rfl, le_refl 0, by decide⟩
    · exact parsePostTagForm_sound _ pb pv rest h
  · exact parsePostTagForm_sound _ pb pv rest h

theorem parseDev_sound (s : List Char) (db : Bool) (dv : Int) (rest : List Char)
    (h : parseDev s = some ((db, dv), rest)) :
    (db = false → dv = 0) ∧ 0 ≤ dv ∧ dv < 2 ^ 63 := by
  rw [parseDev] at h
  by_cases h1 : startsWithChars ['d', 'e', 'v'] (stripSep s) = true
  · rw [if_pos h1] at h
    simp only at h
    by_cases hemp : (takeDigits (stripSep ((stripSep s).drop 3))).1.isEmpty
    · rw [if_pos hemp] at h
      rw [Option.some.injEq, Prod.mk.injEq, Prod.mk.injEq] at h
      obtain ⟨⟨hdb, hdv⟩, _⟩ := h
      rw [← hdb, ← hdv]
      exact ⟨fun hc => absurd hc (by simp), le_refl 0, by decide⟩
    · rw [if_neg hemp] at h
      cases h2 : atoi (takeDigits (stripSep ((stripSep s).drop 3))).1 <;> rw [h2] at h
      · exact absurd h (by simp)
      · rename_i n
        rw [Option.some.injEq, Prod.mk.injEq, Prod.mk.injEq] at h
        obtain ⟨⟨hdb, hdv⟩, _⟩ := h
        rw [← hdb, ← hdv]
        obtain ⟨hb1, hb2⟩ := atoi_bounds _ n h2
        exact ⟨fun hc => absurd hc (by simp), hb1, hb2⟩
  · rw [if_neg h1] at h
    rw [Option.some.injEq, Prod.mk.injEq, Prod.mk.injEq] at h
    obtain ⟨⟨hdb, hdv⟩, _⟩ := h
    rw [← hdb, ← hdv]
    exact ⟨fun _ => rfl, le_refl 0, by decide⟩

theorem padRelease_length (vals : List Int) (h : vals.length ≤ 6) :
    (padRelease vals).length = 6 := by
  simp [padRelease]
  omega

theorem padRelease_take (vals : List Int) :
    (padRelease vals).take vals.length = vals := by
  rw [padRelease, List.take_left]

theorem padRelease_drop (vals : List Int) :
    (padRelease vals).drop vals.length = List.replicate (6 - vals.length) 0 := by
  rw [padRelease, List.drop_left]

theorem parseRest_sound (ep : Int) (seg0 r : List Char) (v : Version)
    (he0 : 0 ≤ ep) (he1 : ep < 2 ^ 63) (h : parseRest ep seg0 r = some v) :
    ParsedInv v := by
  rw [parseRest] at h
  cases hsg : relSegsGo r seg0 [] <;> rw [hsg] at h
  · exact absurd h (by simp)
  · rename_i t
    obtain ⟨segs, w, rest⟩ := t
    simp only at h
    cases hsi : segsToInts segs <;> rw [hsi] at h
    · exact absurd h (by simp)
    · rename_i vals
      simp only at h
      obtain ⟨hlen, hbounds⟩ := segsToInts_sound segs vals hsi
      have hsne : segs ≠ [] :=
        relSegsGo_ne_nil r.length r seg0 [] segs w rest (le_refl _) hsg
      have hvpos : 1 ≤ vals.length := by
        rw [hlen]
        cases segs with
        | nil => exact absurd rfl hsne
        | cons a b => simp
      by_cases hw : w = true
      · rw [if_pos hw] at h
        by_cases hle : vals.length ≤ 5
        · rw [if_pos hle] at h
          rw [Option.some.injEq] at h
          subst h
          exact {
            epoch_nonneg := he0, epoch_lt := he1,
            rv_pos := hvpos,
            rv_le6 := by show vals.length ≤ 6; omega,
            rv_wild := fun _ => hle,
            rel_len := padRelease_length vals (by omega),
            rel_vals := by
              intro x hx
              rw [show (Version.release ⟨ep, vals.length, padRelease vals, true, 0, 0,
                false, 0, false, 0, ""⟩) = padRelease vals from rfl] at hx
              rw [show (Version.releaseVersions ⟨ep, vals.length, padRelease vals, true,
                0, 0, false, 0, false, 0, ""⟩) = vals.length from rfl] at hx
              rw [padRelease_take] at hx
              exact hbounds x hx,
            rel_pad := padRelease_drop vals,
            phase_mem := Or.inl rfl,
            pre_of_phase := fun _ => rfl,
            pre_nonneg := le_refl 0,
            pre_lt := by show (0 : Int) < 2 ^ 63; decide,
            post_of_flag := fun _ => rfl,
            post_nonneg := le_refl 0,
            post_lt := by show (0 : Int) < 2 ^ 63; decide,
            dev_of_flag := fun _ => rfl,
            dev_nonneg := le_refl 0,
            dev_lt := by show (0 : Int) < 2 ^ 63; decide,
            wild_plain := fun _ => ⟨rfl, rfl, rfl, rfl, rfl, rfl, rfl⟩,
            local_shape := Or.inl rfl }
        · rw [if_neg hle] at h
          exact absurd h (by simp)
      · rw [if_neg hw] at h
        by_cases hle : vals.length ≤ 6
        · rw [if_pos hle] at h
          cases hp1 : parsePre rest <;> rw [hp1] at h
          · exact absurd h (by simp)
          · rename_i t1
            obtain ⟨⟨ph, pn⟩, rest1⟩ := t1
            simp only at h
            cases hp2 : parsePost rest1 <;> rw [hp2] at h
            · exact absurd h (by simp)
            · rename_i t2
              obtain ⟨⟨pb, pv⟩, rest2⟩ := t2
              simp only at h
              cases hp3 : parseDev rest2 <;> rw [hp3] at h
              · exact absurd h (by simp)
              · rename_i t3
                obtain ⟨⟨db, dv⟩, rest3⟩ := t3
                simp only at h
                obtain ⟨hpre1, hpre2, hpre3, hpre4⟩ := parsePre_sound rest ph pn rest1 hp1
                obtain ⟨hpost1, hpost2, hpost3⟩ := parsePost_sound rest1 pb pv rest2 hp2
                obtain ⟨hdev1, hdev2, hdev3⟩ := parseDev_sound rest2 db dv rest3 hp3
                split at h
                · rw [Option.some.injEq] at h
                  subst h
                  exact {
                    epoch_nonneg := he0, epoch_lt := he1,
                    rv_pos := hvpos, rv_le6 := hle,
                    rv_wild := fun hc => absurd hc (by simp),
                    rel_len := padRelease_length vals hle,
                    rel_vals := by
                      intro x hx
                      rw [show (Version.release ⟨ep, vals.length, padRelease vals,
                        false, ph, pn, pb, pv, db, dv, ""⟩) = padRelease vals from rfl,
                        show (Version.releaseVersions ⟨ep, vals.length, padRelease vals,
                        false, ph, pn, pb, pv, db, dv, ""⟩) = vals.length from rfl,
                        padRelease_take] at hx
                      exact hbounds x hx,
                    rel_pad := padRelease_drop vals,
                    phase_mem := hpre1,
                    pre_of_phase := hpre2,
                    pre_nonneg := hpre3, pre_lt := hpre4,
                    post_of_flag := hpost1,
                    post_nonneg := hpost2, post_lt := hpost3,
                    dev_of_flag := hdev1,
                    dev_nonneg := hdev2, dev_lt := hdev3,
                    wild_plain := fun hc => absurd hc (by simp),
                    local_shape := Or.inl rfl }
                · rename_i ls
                  by_cases hloc : localOk false ls = true
                  · rw [if_pos hloc] at h
                    rw [Option.some.injEq] at h
                    subst h
                    exact {
                      epoch_nonneg := he0, epoch_lt := he1,
                      rv_pos := hvpos, rv_le6 := hle,
                      rv_wild := fun hc => absurd hc (by simp),
                      rel_len := padRelease_length vals hle,
                      rel_vals := by
                        intro x hx
                        rw [show (Version.release ⟨ep, vals.length, padRelease vals,
                          false, ph, pn, pb, pv, db, dv, String.mk ls⟩) =
                          padRelease vals from rfl,
                          show (Version.releaseVersions ⟨ep, vals.length,
                          padRelease vals, false, ph, pn, pb, pv, db, dv,
                          String.mk ls⟩) = vals.length from rfl,
                          padRelease_take] at hx
                        exact hbounds x hx,
                      rel_pad := padRelease_drop vals,
                      phase_mem := hpre1,
                      pre_of_phase := hpre2,
                      pre_nonneg := hpre3, pre_lt := hpre4,
                      post_of_flag := hpost1,
                      post_nonneg := hpost2, post_lt := hpost3,
                      dev_of_flag := hdev1,
                      dev_nonneg := hdev2, dev_lt := hdev3,
                      wild_plain := fun hc => absurd hc (by simp),
                      local_shape := Or.inr hloc }
                  · rw [if_neg hloc] at h
                    exact absurd h (by simp)
                · exact absurd h (by simp)
        · rw [if_neg hle] at h
          exact absurd h (by simp)

theorem parseChars_sound (s0 : List Char) (v : Version)
    (h : parseChars s0 = some v) : ParsedInv v := by
  rw [parseChars] at h
  split at h
  · split at h
    · exact absurd h (by simp)
    · split at h
      · split at h
        · rename_i e ds2 r3 hat htd
          split at h
          · exact absurd h (by simp)
          · exact parseRest_sound e ds2 r3 v (atoi_bounds _ e hat).1
              (atoi_bounds _ e hat).2 h
        · exact absurd h (by simp)
      · exact parseRest_sound 0 _ _ v (le_refl 0) (by decide) h
  · split at h
    · exact absurd h (by simp)
    · split at h
      · split at h
        · rename_i e ds2 r3 hat htd
          split at h
          · exact absurd h (by simp)
          · exact parseRest_sound e ds2 r3 v (atoi_bounds _ e hat).1
              (atoi_bounds _ e hat).2 h
        · exact absurd h (by simp)
      · exact parseRest_sound 0 _ _ v (le_refl 0) (by decide) h

theorem parse_sound (s : String) (v : Version) (h : parse s = some v) :
    ParsedInv v := by
  rw [parse] at h
  exact parseChars_sound _ v h

/-! Completeness of the parser on canonical output: re-parsing the
canonical printing of an invariant-satisfying value yields the value. -/

theorem locChars_headNotDigit (v : Version) : headNotDigit (locChars v) := by
  rw [locChars]
  by_cases hl : v.localVersion = ""
  · rw [if_pos hl]
    trivial
  · rw [if_neg hl]
    show ('+').isDigit = false
    decide

theorem devloc_headNotDigit (v : Version) :
    headNotDigit (devChars v ++ locChars v) := by
  rw [devChars]
  by_cases hd : v.devRelease = true
  · rw [if_pos hd]
    show ('.').isDigit = false
    decide
  · rw [if_neg hd, List.nil_append]
    exact locChars_headNotDigit v

theorem pdl_headNotDigit (v : Version) :
    headNotDigit (postChars v ++ (devChars v ++ locChars v)) := by
  rw [postChars]
  by_cases hp : v.postRelease = true
  · rw [if_pos hp]
    show ('.').isDigit = false
    decide
  · rw [if_neg hp, List.nil_append]
    exact devloc_headNotDigit v

theorem preChars_of_zero (v : Version) (hph : v.preReleasePhase = 0) :
    preChars v = [] := by
  simp [preChars, hph, PrereleaseAlpha, PrereleaseBeta, PrereleaseCandidate]

theorem preChars_of_rc (v : Version) (hph : v.preReleasePhase = -1) :
    preChars v = 'r' :: 'c' :: intDigits v.preReleaseVersion := by
  simp [preChars, hph, PrereleaseAlpha, PrereleaseBeta, PrereleaseCandidate]

theorem preChars_of_beta (v : Version) (hph : v.preReleasePhase = -2) :
    preChars v = 'b' :: intDigits v.preReleaseVersion := by
  simp [preChars, hph, PrereleaseAlpha, PrereleaseBeta, PrereleaseCandidate]

theorem preChars_of_alpha (v : Version) (hph : v.preReleasePhase = -3) :
    preChars v = 'a' :: intDigits v.preReleaseVersion := by
  simp [preChars, hph, PrereleaseAlpha, PrereleaseBeta, PrereleaseCandidate]

theorem tail_stage_ok (v : Version) (hv : ParsedInv v) :
    relStop (preChars v ++ (postChars v ++ (devChars v ++ locChars v))) ∧
      (preChars v ++ (postChars v ++ (devChars v ++ locChars v))).head? ≠
        some '!' := by
  rcases hv.phase_mem with hph | hph | hph | hph
  · rw [preChars_of_zero v hph, List.nil_append, postChars]
    by_cases hp : v.postRelease = true
    · rw [if_pos hp]
      exact ⟨relStop_dot 'p' _ (by decide) (by decide), by simp⟩
    · rw [if_neg hp, List.nil_append, devChars]
      by_cases hd : v.devRelease = true
      · rw [if_pos hd]
        exact ⟨relStop_dot 'd' _ (by decide) (by decide), by simp⟩
      · rw [if_neg hd, List.nil_append, locChars]
        by_cases hl : v.localVersion = ""
        · rw [if_pos hl]
          exact ⟨trivial, by simp⟩
        · rw [if_neg hl]
          exact ⟨relStop_of_head '+' _ (by decide) (by decide), by simp⟩
  · rw [preChars_of_rc v hph]
    exact ⟨relStop_of_head 'r' _ (by decide) (by decide), by simp⟩
  · rw [preChars_of_beta v hph]
    exact ⟨relStop_of_head 'b' _ (by decide) (by decide), by simp⟩
  · rw [preChars_of_alpha v hph]
    exact ⟨relStop_of_head 'a' _ (by decide) (by decide), by simp⟩

theorem parsePre_tail (v : Version) (hv : ParsedInv v) :
    parsePre (preChars v ++ (postChars v ++ (devChars v ++ locChars v))) =
      some ((v.preReleasePhase, v.preReleaseVersion),
        postChars v ++ (devChars v ++ locChars v)) := by
  rcases hv.phase_mem with hph | hph | hph | hph
  · rw [preChars_of_zero v hph, List.nil_append, hph, hv.pre_of_phase hph, postChars]
    by_cases hp : v.postRelease = true
    · rw [if_pos hp]
      simp only [List.cons_append]
      exact parsePre_skip_post _
    · rw [if_neg hp, List.nil_append, devChars]
      by_cases hd : v.devRelease = true
      · rw [if_pos hd]
        simp only [List.cons_append]
        exact parsePre_skip_dev _
      · rw [if_neg hd, List.nil_append, locChars]
        by_cases hl : v.localVersion = ""
        · rw [if_pos hl]
          exact parsePre_nil
        · rw [if_neg hl]
          exact parsePre_skip_local _
  · rw [preChars_of_rc v hph, hph]
    simp only [List.cons_append, List.append_assoc]
    exact parsePre_rc v.preReleaseVersion _ hv.pre_nonneg hv.pre_lt
      (pdl_headNotDigit v)
  · rw [preChars_of_beta v hph, hph]
    simp only [List.cons_append, List.append_assoc]
    exact parsePre_beta v.preReleaseVersion _ hv.pre_nonneg hv.pre_lt
      (pdl_headNotDigit v)
  · rw [preChars_of_alpha v hph, hph]
    simp only [List.cons_append, List.append_assoc]
    exact parsePre_alpha v.preReleaseVersion _ hv.pre_nonneg hv.pre_lt
      (pdl_headNotDigit v)

theorem parsePost_tail (v : Version) (hv : ParsedInv v) :
    parsePost (postChars v ++ (devChars v ++ locChars v)) =
      some ((v.postRelease, v.postReleaseVersion), devChars v ++ locChars v) := by
  by_cases hp : v.postRelease = true
  · rw [postChars, if_pos hp, hp]
    simp only [List.cons_append, List.append_assoc]
    exact parsePost_post v.postReleaseVersion _ hv.post_nonneg hv.post_lt
      (devloc_headNotDigit v)
  · have hp' : v.postRelease = false := by
      revert hp
      cases v.postRelease <;> simp
    rw [postChars, if_neg hp, List.nil_append, hp', hv.post_of_flag hp', devChars]
    by_cases hd : v.devRelease = true
    · rw [if_pos hd]
      simp only [List.cons_append]
      exact parsePost_skip_dev _
    · rw [if_neg hd, List.nil_append, locChars]
      by_cases hl : v.localVersion = ""
      · rw [if_pos hl]
        exact parsePost_nil
      · rw [if_neg hl]
        exact parsePost_skip_local _

theorem parseDev_tail (v : Version) (hv : ParsedInv v) :
    parseDev (devChars v ++ locChars v) =
      some ((v.devRelease, v.devReleaseVersion), locChars v) := by
  by_cases hd : v.devRelease = true
  · rw [devChars, if_pos hd, hd]
    simp only [List.cons_append]
    exact parseDev_dev v.devReleaseVersion _ hv.dev_nonneg hv.dev_lt
      (locChars_headNotDigit v)
  · have hd' : v.devRelease = false := by
      revert hd
      cases v.devRelease <;> simp
    rw [devChars, if_neg hd, List.nil_append, hd', hv.dev_of_flag hd', locChars]
    by_cases hl : v.localVersion = ""
    · rw [if_pos hl]
      exact parseDev_nil
    · rw [if_neg hl]
      exact parseDev_skip_local _

theorem version_eta (v : Version) :
    (⟨v.epoch, v.releaseVersions, v.release, v.wildcard, v.preReleasePhase,
      v.preReleaseVersion, v.postRelease, v.postReleaseVersion, v.devRelease,
      v.devReleaseVersion, v.localVersion⟩ : Version) = v := rfl

theorem string_mk_data (s : String) : String.mk s.data = s := rfl

/-- Re-parsing the canonical character list of any value in the image of
`Parse` restores the value. -/
theorem canon_reparse (v : Version) (hv : ParsedInv v) :
    parseChars (canonicalChars v) = some v := by
  have hlen : (v.release.take v.releaseVersions).length = v.releaseVersions := by
    rw [List.length_take, hv.rel_len]
    have := hv.rv_le6
    omega
  obtain ⟨r0, rs, hcv⟩ : ∃ r0 rs, v.release.take v.releaseVersions = r0 :: rs := by
    cases hcv : v.release.take v.releaseVersions with
    | nil =>
      rw [hcv] at hlen
      have h1 := hv.rv_pos
      simp at hlen
      omega
    | cons a b => exact ⟨a, b, rfl⟩
  have hvals : ∀ x ∈ r0 :: rs, 0 ≤ x ∧ x < 2 ^ 63 := by
    rw [← hcv]
    exact hv.rel_vals
  have hr0 : 0 ≤ r0 ∧ r0 < 2 ^ 63 := hvals r0 (by simp)
  have hsegs : ∀ s ∈ rs.map intDigits, s ≠ [] ∧ allDigits s := by
    intro s hs
    rw [List.mem_map] at hs
    obtain ⟨x, hx, rfl⟩ := hs
    exact intDigits_seg x (hvals x (by simp [hx])).1
  have hrel : relChars v = intDigits r0 ++ dotTail (rs.map intDigits) := by
    rw [relChars, hcv, List.map_cons, dotJoin_eq_dotTail]
  have hpad : padRelease (r0 :: rs) = v.release := by
    rw [← hcv, padRelease, hlen, ← hv.rel_pad]
    exact List.take_append_drop _ _
  have hlen' : (r0 :: rs).length = v.releaseVersions := by
    rw [← hcv]
    exact hlen
  have hsi : segsToInts (intDigits r0 :: rs.map intDigits) = some (r0 :: rs) := by
    have h1 := segsToInts_map (r0 :: rs) hvals
    rwa [List.map_cons] at h1
  have hepoch : ∀ rest0 : List Char, headNotDigit rest0 → rest0.head? ≠ some '!' →
      parseChars (epochChars v ++ (intDigits r0 ++ rest0)) =
        parseRest v.epoch (intDigits r0) rest0 := by
    intro rest0 hnd hnb
    by_cases he : v.epoch > 0
    · rw [epochChars, if_pos he]
      rw [List.append_assoc]
      simp only [List.cons_append, List.nil_append]
      exact parseChars_with_epoch v.epoch r0 rest0 hv.epoch_nonneg hv.epoch_lt
        hr0.1 hnd
    · have he0 : v.epoch = 0 := le_antisymm (by omega) hv.epoch_nonneg
      rw [epochChars, if_neg he, List.nil_append, he0]
      exact parseChars_no_epoch r0 rest0 hr0.1 hnd hnb
  by_cases hw : v.wildcard = true
  · obtain ⟨hph, hpn, hpb, hpv, hdb, hdv, hlv⟩ := hv.wild_plain hw
    rw [canonicalChars, if_pos hw, hrel]
    simp only [List.append_assoc]
    have hnd : headNotDigit (dotTail (rs.map intDigits) ++ ['.', '*']) :=
      headNotDigit_dotTail_append _ _ (by show ('.').isDigit = false; decide)
    have hnb : (dotTail (rs.map intDigits) ++ ['.', '*']).head? ≠ some '!' := by
      rcases head_dotTail_append (rs.map intDigits) ['.', '*'] with h | h <;>
        rw [h] <;> decide
    rw [hepoch _ hnd hnb, parseRest,
      relSegsGo_dotTail_wild (rs.map intDigits) (intDigits r0) [] hsegs]
    have hle5 : (r0 :: rs).length ≤ 5 := by
      rw [hlen']
      exact hv.rv_wild hw
    simp only [List.nil_append, hsi, eq_self_iff_true, if_true, hle5]
    conv_rhs => rw [← version_eta v]
    rw [Option.some.injEq, Version.mk.injEq]
    refine ⟨rfl, ?_, ?_, hw.symm, hph.symm, hpn.symm, hpb.symm, hpv.symm,
      hdb.symm, hdv.symm, hlv.symm⟩
    · simpa using hlen'
    · simpa using hpad
  · have hw' : v.wildcard = false := by
      revert hw
      cases v.wildcard <;> simp
    obtain ⟨hstop, hnb'⟩ := tail_stage_ok v hv
    rw [canonicalChars, if_neg hw, hrel]
    simp only [List.append_assoc]
    have hnd : headNotDigit (dotTail (rs.map intDigits) ++
        (preChars v ++ (postChars v ++ (devChars v ++ locChars v)))) :=
      headNotDigit_dotTail_append _ _ (relStop_headNotDigit _ hstop)
    have hnb : (dotTail (rs.map intDigits) ++
        (preChars v ++ (postChars v ++ (devChars v ++ locChars v)))).head? ≠
        some '!' := by
      rcases head_dotTail_append (rs.map intDigits)
        (preChars v ++ (postChars v ++ (devChars v ++ locChars v))) with h | h <;>
          rw [h]
      · exact hnb'
      · decide
    rw [hepoch _ hnd hnb, parseRest,
      relSegsGo_dotTail (rs.map intDigits) _ (intDigits r0) [] hsegs hstop]
    have hle6 : (r0 :: rs).length ≤ 6 := by
      rw [hlen']
      exact hv.rv_le6
    simp only [List.nil_append, hsi, Bool.false_eq_true, if_false, hle6,
      eq_self_iff_true, if_true, parsePre_tail v hv, parsePost_tail v hv,
      parseDev_tail v hv]
    by_cases hl : v.localVersion = ""
    · simp only [locChars, hl, eq_self_iff_true, if_true]
      conv_rhs => rw [← version_eta v]
      rw [Option.some.injEq, Version.mk.injEq]
      refine ⟨rfl, ?_, ?_, hw'.symm, rfl, rfl, rfl, rfl, rfl, rfl, hl.symm⟩
      · simpa using hlen'
      · simpa using hpad
    · have hlk : localOk false v.localVersion.data = true := by
        rcases hv.local_shape with h | h
        · exact absurd h hl
        · exact h
      simp only [locChars, hl, if_false, hlk, eq_self_iff_true, if_true,
        string_mk_data]
      conv_rhs => rw [← version_eta v]
      rw [Option.some.injEq, Version.mk.injEq]
      refine ⟨rfl, ?_, ?_, hw'.symm, rfl, rfl, rfl, rfl, rfl, rfl, rfl⟩
      · simpa using hlen'
      · simpa using hpad

/-! `strings.ToLower` fixes the canonical form (it is already lower
case), so `Parse` of the canonical string sees the canonical characters
unchanged. -/

theorem lowerChar_digit (c : Char) (h : c.isDigit = true) : lowerChar c = c := by
  rw [lowerChar, if_neg]
  intro hc
  rw [Char.isDigit] at h
  simp only [Bool.and_eq_true, decide_eq_true_eq] at h
  have h1 : ('A' : Char).val ≤ c.val := hc.1
  have h2 : ('A' : Char).val ≤ 57 := UInt32.le_trans h1 h.2
  exact absurd h2 (by decide)

theorem lowerChar_lower (c : Char) (h : ('a' ≤ c && c ≤ 'z') = true) :
    lowerChar c = c := by
  rw [lowerChar, if_neg]
  intro hc
  simp only [Bool.and_eq_true, decide_eq_true_eq] at h
  have h2 := le_trans h.1 hc.2
  exact absurd h2 (by decide)

theorem lowerChar_sep (c : Char) (h : isSep c = true) : lowerChar c = c := by
  rw [isSep] at h
  simp only [Bool.or_eq_true, decide_eq_true_eq] at h
  rcases h with (h | h) | h <;> rw [h] <;> decide

theorem localOk_chars : ∀ (l : List Char) (ok : Bool), localOk ok l = true →
    ∀ c ∈ l, isLocalAlnum c = true ∨ isSep c = true := by
  intro l
  induction l with
  | nil =>
    intro ok _ c hc
    exact absurd hc (List.not_mem_nil c)
  | cons d ds ih =>
    intro ok h c hc
    rw [localOk] at h
    by_cases h1 : isLocalAlnum d = true
    · rw [if_pos h1] at h
      rcases List.mem_cons.mp hc with rfl | hc
      · exact Or.inl h1
      · exact ih true h c hc
    · rw [if_neg h1] at h
      by_cases h2 : (ok && isSep d) = true
      · rw [if_pos h2] at h
        rcases List.mem_cons.mp hc with rfl | hc
        · rw [Bool.and_eq_true] at h2
          exact Or.inr h2.2
        · exact ih false h c hc
      · rw [if_neg h2] at h
        exact absurd h (by simp)

theorem mem_intDigits_fix (n : Int) (hn : 0 ≤ n) (c : Char)
    (hc : c ∈ intDigits n) : lowerChar c = c :=
  lowerChar_digit c ((intDigits_seg n hn).2 c hc)

theorem mem_epochChars_fix (v : Version) (hv : ParsedInv v) (c : Char)
    (hc : c ∈ epochChars v) : lowerChar c = c := by
  rw [epochChars] at hc
  by_cases he : v.epoch > 0
  · rw [if_pos he] at hc
    rcases List.mem_append.mp hc with h | h
    · exact mem_intDigits_fix v.epoch hv.epoch_nonneg c h
    · simp at h
      rw [h]
      decide
  · rw [if_neg he] at hc
    exact absurd hc (List.not_mem_nil c)

theorem mem_dotTail (c : Char) : ∀ (xs : List (List Char)), c ∈ dotTail xs →
    c = '.' ∨ ∃ x ∈ xs, c ∈ x := by
  intro xs
  induction xs with
  | nil =>
    intro h
    exact absurd h (List.not_mem_nil c)
  | cons y ys ih =>
    intro h
    rw [dotTail] at h
    rcases List.mem_cons.mp h with rfl | h
    · exact Or.inl rfl
    · rcases List.mem_append.mp h with h | h
      · exact Or.inr ⟨y, by simp, h⟩
      · rcases ih h with h | ⟨x, hx, hcx⟩
        · exact Or.inl h
        · exact Or.inr ⟨x, by simp [hx], hcx⟩

theorem mem_dotJoin (c : Char) : ∀ xs, c ∈ dotJoin xs →
    c = '.' ∨ ∃ x ∈ xs, c ∈ x := by
  intro xs
  cases xs with
  | nil =>
    intro h
    exact absurd h (List.not_mem_nil c)
  | cons y ys =>
    intro h
    rw [dotJoin_eq_dotTail] at h
    rcases List.mem_append.mp h with h | h
    · exact Or.inr ⟨y, by simp, h⟩
    · rcases mem_dotTail c ys h with h | ⟨x, hx, hcx⟩
      · exact Or.inl h
      · exact Or.inr ⟨x, by simp [hx], hcx⟩

theorem mem_relChars_fix (v : Version) (hv : ParsedInv v) (c : Char)
    (hc : c ∈ relChars v) : lowerChar c = c := by
  rw [relChars] at hc
  rcases mem_dotJoin c _ hc with rfl | ⟨x, hx, hcx⟩
  · decide
  · rw [List.mem_map] at hx
    obtain ⟨n, hn, rfl⟩ := hx
    exact mem_intDigits_fix n (hv.rel_vals n hn).1 c hcx

theorem mem_preChars_fix (v : Version) (hv : ParsedInv v) (c : Char)
    (hc : c ∈ preChars v) : lowerChar c = c := by
  rcases hv.phase_mem with hph | hph | hph | hph
  · rw [preChars_of_zero v hph] at hc
    exact absurd hc (List.not_mem_nil c)
  · rw [preChars_of_rc v hph] at hc
    rcases List.mem_cons.mp hc with rfl | hc
    · decide
    · rcases List.mem_cons.mp hc with rfl | hc
      · decide
      · exact mem_intDigits_fix _ hv.pre_nonneg c hc
  · rw [preChars_of_beta v hph] at hc
    rcases List.mem_cons.mp hc with rfl | hc
    · decide
    · exact mem_intDigits_fix _ hv.pre_nonneg c hc
  · rw [preChars_of_alpha v hph] at hc
    rcases List.mem_cons.mp hc with rfl | hc
    · decide
    · exact mem_intDigits_fix _ hv.pre_nonneg c hc

theorem mem_postChars_fix (v : Version) (hv : ParsedInv v) (c : Char)
    (hc : c ∈ postChars v) : lowerChar c = c := by
  rw [postChars] at hc
  by_cases hp : v.postRelease = true
  · rw [if_pos hp] at hc
    rcases List.mem_cons.mp hc with rfl | hc
    · decide
    · rcases List.mem_cons.mp hc with rfl | hc
      · decide
      · rcases List.mem_cons.mp hc with rfl | hc
        · decide
        · rcases List.mem_cons.mp hc with rfl | hc
          · decide
          · rcases List.mem_cons.mp hc with rfl | hc
            · decide
            · exact mem_intDigits_fix _ hv.post_nonneg c hc
  · rw [if_neg hp] at hc
    exact absurd hc (List.not_mem_nil c)

theorem mem_devChars_fix (v : Version) (hv : ParsedInv v) (c : Char)
    (hc : c ∈ devChars v) : lowerChar c = c := by
  rw [devChars] at hc
  by_cases hd : v.devRelease = true
  · rw [if_pos hd] at hc
    rcases List.mem_cons.mp hc with rfl | hc
    · decide
    · rcases List.mem_cons.mp hc with rfl | hc
      · decide
      · rcases List.mem_cons.mp hc with rfl | hc
        · decide
        · rcases List.mem_cons.mp hc with rfl | hc
          · decide
          · exact mem_intDigits_fix _ hv.dev_nonneg c hc
  · rw [if_neg hd] at hc
    exact absurd hc (List.not_mem_nil c)

theorem mem_locChars_fix (v : Version) (hv : ParsedInv v) (c : Char)
    (hc : c ∈ locChars v) : lowerChar c = c := by
  rw [locChars] at hc
  by_cases hl : v.localVersion = ""
  · rw [if_pos hl] at hc
    exact absurd hc (List.not_mem_nil c)
  · rw [if_neg hl] at hc
    rcases List.mem_cons.mp hc with rfl | hc
    · decide
    · have hlk : localOk false v.localVersion.data = true := by
        rcases hv.local_shape with h | h
        · exact absurd h hl
        · exact h
      rcases localOk_chars v.localVersion.data false hlk c hc with h | h
      · rw [isLocalAlnum] at h
        rw [Bool.or_eq_true] at h
        rcases h with h | h
        · exact lowerChar_digit c h
        · exact lowerChar_lower c h
      · exact lowerChar_sep c h

theorem canon_lower (v : Version) (hv : ParsedInv v) :
    (canonicalChars v).map lowerChar = canonicalChars v := by
  have hfix : ∀ c ∈ canonicalChars v, lowerChar c = c := by
    intro c hc
    rw [canonicalChars] at hc
    by_cases hw : v.wildcard = true
    · rw [if_pos hw] at hc
      rcases List.mem_append.mp hc with hc | hc
      · rcases List.mem_append.mp hc with hc | hc
        · exact mem_epochChars_fix v hv c hc
        · exact mem_relChars_fix v hv c hc
      · rcases List.mem_cons.mp hc with rfl | hc
        · decide
        · simp at hc
          rw [hc]
          decide
    · rw [if_neg hw] at hc
      rcases List.mem_append.mp hc with hc | hc
      · rcases List.mem_append.mp hc with hc | hc
        · rcases List.mem_append.mp hc with hc | hc
          · rcases List.mem_append.mp hc with hc | hc
            · rcases List.mem_append.mp hc with hc | hc
              · exact mem_epochChars_fix v hv c hc
              · exact mem_relChars_fix v hv c hc
            · exact mem_preChars_fix v hv c hc
          · exact mem_postChars_fix v hv c hc
        · exact mem_devChars_fix v hv c hc
      · exact mem_locChars_fix v hv c hc
  have h1 : (canonicalChars v).map lowerChar = (canonicalChars v).map id :=
    List.map_congr_left hfix
  rw [h1, List.map_id]

/-- C4: canonicalization round trip.  For every input string accepted by
`Parse`, re-parsing the canonical form yields the identical `Version`
value (structural equality of the whole record: epoch, release vector
and effective length, wildcard, pre/post/dev fields and local
version). -/
theorem c4_parse_canonical_roundtrip (s : String) (v : Version)
    (h : parse s = some v) : parse v.Canonical = some v := by
  have hv := parse_sound s v h
  rw [parse, Version.Canonical]
  rw [show (String.mk (canonicalChars v)).data = canonicalChars v from rfl]
  rw [canon_lower v hv]
  exact canon_reparse v hv

/-- The round trip at the concrete accepted input
`1!1.16rc3.post5.dev2+abc.xyz`. -/
theorem c4_parse_canonical_roundtrip_witness :
    parse "1!1.16rc3.post5.dev2+abc.xyz" =
        some ⟨1, 2, [1, 16, 0, 0, 0, 0], false, -1, 3, true, 5, true, 2,
          "abc.xyz"⟩ ∧
      parse (Version.Canonical ⟨1, 2, [1, 16, 0, 0, 0, 0], false, -1, 3, true, 5,
          true, 2, "abc.xyz"⟩) =
        some ⟨1, 2, [1, 16, 0, 0, 0, 0], false, -1, 3, true, 5, true, 2,
          "abc.xyz"⟩ :=
  ⟨by decide, c4_parse_canonical_roundtrip "1!1.16rc3.post5.dev2+abc.xyz" _
    (by decide)⟩

end Rope
